import Mathlib

set_option maxHeartbeats 2000000

/-!
Shallow embedding of the xv6 physical-memory allocator with swap support
(kernel/kalloc.c): free-list allocator, LRU ring, swap-slot bitmap,
clock eviction (swapout) and fault fill (swapin), together with proofs
about the clock scan, the swapped-out entry encoding, the round trip,
and the structural invariant of the LRU ring.

Modelling conventions:
- pages[] entries are identified by their index; C pointers into pages[]
  are Option Nat (none = null pointer).
- A null-pointer dereference that the C code would perform is modelled by
  returning the state unchanged (in LRU helpers) or by returning none from
  the scan; every such spot is marked with a comment and is unreachable
  for the well-formed states the theorems quantify over.
- panic is modelled by an Option-valued result (none = panic).
- A page image is abstracted to one token (a Nat); memset with byte b
  yields token b, and the storage primitives swapwrite/swapread copy
  tokens, which is the spec's assumption of faithful storage.
-/

/-- Page size in bytes. -/
def PGSIZE : Nat := 4096

/-- Valid bit of a translation entry (bit 0). Modelled from the spec: riscv.h
    is not under src/; the spec places the flag bits in the low 10 bits of an
    entry, with Valid and Accessed distinct single bits among them. -/
def PTE_V : Nat := 1

/-- Accessed bit of a translation entry (bit 6). Modelled from the spec: see PTE_V. -/
def PTE_A : Nat := 64

/-- Low ten flag bits of an entry (macro PTE_FLAGS). -/
def PTE_FLAGS (v : Nat) : Nat := v &&& 1023

/-- Physical address stored in an entry (macro PTE2PA). -/
def PTE2PA (v : Nat) : Nat := (v >>> 10) <<< 12

/-- Entry field encoding a physical address (macro PA2PTE). -/
def PA2PTE (pa : Nat) : Nat := (pa >>> 12) <<< 10

/-- Conversion of a 64-bit unsigned value to a 32-bit signed int, as the
    C cast (int)swap_offset behaves on the target (two's-complement wrap). -/
def toInt32 (n : Nat) : Int :=
  if n % 2 ^ 32 < 2 ^ 31 then (n % 2 ^ 32 : Int) else (n % 2 ^ 32 : Int) - 2 ^ 32

/-- struct page (LRU links and owner metadata). The owner page table and the
    mapped virtual address are plain numbers, 0 playing the role of null. -/
structure Page where
  next : Option Nat
  prev : Option Nat
  pagetable : Nat
  vaddr : Nat
deriving DecidableEq

/-- Configuration constants: the managed range [endAddr, physTop) and the
    swap capacity SWAP_PAGES. -/
structure Kparams where
  endAddr : Nat
  physTop : Nat
  swapPages : Nat

/-- Global state: pages[], page_lru_head, num_lru_pages, kmem.freelist,
    the swap_bitmap bytes, the page-table walk (an external collaborator,
    a pure lookup from (pagetable, vaddr) to the location of a translation
    entry), translation-entry memory, page contents and the swap store. -/
structure Machine where
  pages : Nat → Page
  page_lru_head : Option Nat
  num_lru_pages : Int
  freelist : List Nat
  bitmap : Nat → Nat
  walk : Nat → Nat → Option Nat
  pteMem : Nat → Nat
  mem : Nat → Nat
  swapStore : Nat → Nat

/-- Pointwise update of a function, modelling a store to an array cell. -/
def upd {α : Type} (f : Nat → α) (i : Nat) (v : α) : Nat → α :=
  fun j => if j = i then v else f j

/-- lru_add: insert pg at the tail of the circular LRU list (before the head). -/
def lru_add (pg : Nat) (s : Machine) : Machine :=
  match s.page_lru_head with
  | none =>
    { s with page_lru_head := some pg
           , pages := upd s.pages pg { s.pages pg with next := some pg, prev := some pg }
           , num_lru_pages := s.num_lru_pages + 1 }
  | some h =>
    -- pg->next = head; pg->prev = head->prev; head->prev->next = pg; head->prev = pg
    let f1 := upd s.pages pg { s.pages pg with next := some h }
    let f2 := upd f1 pg { f1 pg with prev := (f1 h).prev }
    match (f2 h).prev with
    | none => s  -- null dereference in the C code; unreachable for a well-formed list
    | some t =>
      let f3 := upd f2 t { f2 t with next := some pg }
      let f4 := upd f3 h { f3 h with prev := some pg }
      { s with pages := f4, num_lru_pages := s.num_lru_pages + 1 }

/-- lru_remove: splice pg out of the circular LRU list and clear its links.
    The owner fields (pagetable, vaddr) are not touched by the C code. -/
def lru_remove (pg : Nat) (s : Machine) : Machine :=
  let s1 :=
    if (s.pages pg).next = some pg then
      { s with page_lru_head := none }
    else
      match (s.pages pg).prev, (s.pages pg).next with
      | some pv, some nx =>
        let f1 := upd s.pages pv { s.pages pv with next := some nx }
        let f2 := upd f1 nx { f1 nx with prev := some pv }
        { s with pages := f2
               , page_lru_head := if s.page_lru_head = some pg then some nx
                                  else s.page_lru_head }
      | _, _ => s  -- null dereference in the C code; unreachable for an enrolled frame
  { s1 with pages := upd s1.pages pg { s1.pages pg with next := none, prev := none }
          , num_lru_pages := s1.num_lru_pages - 1 }

/-- lru_move_to_tail_locked: relocate an enrolled pg to the tail (just before
    the head); returns unchanged when the list is empty or pg is unlinked. -/
def lru_move_to_tail_locked (pg : Nat) (s : Machine) : Machine :=
  if s.page_lru_head = none ∨ (s.pages pg).next = none then s
  else
    match (s.pages pg).prev, (s.pages pg).next with
    | some pv, some nx =>
      let f1 := upd s.pages pv { s.pages pv with next := some nx }
      let f2 := upd f1 nx { f1 nx with prev := some pv }
      let h2 := if s.page_lru_head = some pg then some nx else s.page_lru_head
      match h2 with
      | none => s  -- unreachable: the guard excludes an empty list
      | some h =>
        -- pg->next = head; pg->prev = head->prev; head->prev->next = pg; head->prev = pg
        let f3 := upd f2 pg { f2 pg with next := some h }
        let f4 := upd f3 pg { f3 pg with prev := (f3 h).prev }
        match (f4 h).prev with
        | none => s  -- null dereference in the C code; unreachable for a well-formed list
        | some t =>
          let f5 := upd f4 t { f4 t with next := some pg }
          let f6 := upd f5 h { f5 h with prev := some pg }
          { s with pages := f6, page_lru_head := h2 }
    | _, _ => s  -- null dereference in the C code; unreachable for an enrolled frame

/-- Loop of swap_alloc: scan the bitmap from bit i for a clear bit, set it
    and return its index; the second argument is the number of bits still to
    scan (the C loop runs i from 0 to SWAP_PAGES - 1). Bytes are stored
    truncated to 8 bits, as the uint8 array does. -/
def swapAllocLoop (s : Machine) : Nat → Nat → Option Nat × Machine
  | _, 0 => (none, s)
  | i, n + 1 =>
    if s.bitmap (i / 8) &&& (1 <<< (i % 8)) = 0 then
      (some i, { s with bitmap := upd s.bitmap (i / 8)
                          ((s.bitmap (i / 8) ||| (1 <<< (i % 8))) &&& 255) })
    else swapAllocLoop s (i + 1) n

/-- swap_alloc: first-fit scan for a free swap slot. -/
def swap_alloc (p : Kparams) (s : Machine) : Option Nat × Machine :=
  swapAllocLoop s 0 p.swapPages

/-- swap_free: clear the bitmap bit of slot blkno; no-op when out of range. -/
def swap_free (p : Kparams) (blkno : Int) (s : Machine) : Machine :=
  if blkno < 0 ∨ (p.swapPages : Int) ≤ blkno then s
  else { s with bitmap := upd s.bitmap (blkno.toNat / 8)
                  (s.bitmap (blkno.toNat / 8) &&& (255 - (1 <<< (blkno.toNat % 8)))) }

/-- kfree: panic (none) unless pa is page-aligned and inside the managed
    range; otherwise fill the page with junk byte 1 and push it on the
    free list. -/
def kfree (p : Kparams) (pa : Nat) (s : Machine) : Option Machine :=
  if pa % PGSIZE ≠ 0 ∨ pa < p.endAddr ∨ p.physTop ≤ pa then none
  else some { s with mem := upd s.mem pa 1, freelist := pa :: s.freelist }

/-- pa2page: page index of a physical address, none when out of range. -/
def pa2page (p : Kparams) (pa : Nat) : Option Nat :=
  if pa < p.endAddr ∨ p.physTop ≤ pa then none
  else some ((pa - p.endAddr) / PGSIZE)

/-- The clock scan of swapout (the do-while loop), with explicit fuel (last
    argument). The result is none when the C code would dereference a null
    pointer or when the fuel runs out (the fuel chosen by swapout provably
    suffices); otherwise (victim?, state, number of loop iterations). -/
def clockScan (s : Machine) (curr : Nat) (rounds : Int) : Nat → Option (Option Nat × Machine × Nat)
  | 0 => none
  | fuel + 1 =>
    if (s.pages curr).pagetable = 0 ∨ (s.pages curr).vaddr = 0 then
      -- stale metadata: curr = curr->next; rounds++; break if over budget
      match (s.pages curr).next with
      | none => none  -- null dereference in the C code
      | some c2 =>
        if rounds + 1 > s.num_lru_pages then some (none, s, 1)
        else if some c2 ≠ s.page_lru_head ∧ rounds + 1 ≤ s.num_lru_pages then
          (clockScan s c2 (rounds + 1) fuel).map (fun r => (r.1, r.2.1, r.2.2 + 1))
        else some (none, s, 1)
    else
      match s.walk (s.pages curr).pagetable (s.pages curr).vaddr with
      | none =>
        match (s.pages curr).next with
        | none => none  -- null dereference in the C code
        | some c2 =>
          if rounds + 1 > s.num_lru_pages then some (none, s, 1)
          else if some c2 ≠ s.page_lru_head ∧ rounds + 1 ≤ s.num_lru_pages then
            (clockScan s c2 (rounds + 1) fuel).map (fun r => (r.1, r.2.1, r.2.2 + 1))
          else some (none, s, 1)
      | some t =>
        if s.pteMem t &&& PTE_V = 0 then
          match (s.pages curr).next with
          | none => none  -- null dereference in the C code
          | some c2 =>
            if rounds + 1 > s.num_lru_pages then some (none, s, 1)
            else if some c2 ≠ s.page_lru_head ∧ rounds + 1 ≤ s.num_lru_pages then
              (clockScan s c2 (rounds + 1) fuel).map (fun r => (r.1, r.2.1, r.2.2 + 1))
            else some (none, s, 1)
        else if s.pteMem t &&& PTE_A = 0 then
          some (some curr, s, 1)  -- found the victim
        else
          -- second chance: *pte &= ~PTE_A; move to tail; advance
          let s1 := { s with pteMem := upd s.pteMem t (s.pteMem t &&& (2 ^ 64 - 65)) }
          let s2 := lru_move_to_tail_locked curr s1
          match (s2.pages curr).next with
          | none => none  -- null dereference in the C code
          | some c2 =>
            if some c2 ≠ s2.page_lru_head ∧ rounds + 1 ≤ s2.num_lru_pages then
              (clockScan s2 c2 (rounds + 1) fuel).map (fun r => (r.1, r.2.1, r.2.2 + 1))
            else some (none, s2, 1)

/-- swapout: clock eviction. Returns none on panic (a null dereference or a
    kfree panic that the C code would hit), some (-1, s) on failure, and
    some (0, s) after a successful eviction. -/
def swapout (p : Kparams) (s : Machine) : Option (Int × Machine) :=
  match s.page_lru_head with
  | none => some (-1, s)
  | some h =>
    match clockScan s h 0 (s.num_lru_pages.toNat + 2) with
    | none => none
    | some (none, s1, _) => some (-1, s1)
    | some (some victim, s1, _) =>
      match swap_alloc p s1 with
      | (none, s2) => some (-1, s2)
      | (some blk, s2) =>
        match s2.walk (s2.pages victim).pagetable (s2.pages victim).vaddr with
        | none => some (-1, swap_free p blk s2)
        | some t =>
          if s2.pteMem t &&& PTE_V = 0 then some (-1, swap_free p blk s2)
          else
            let pa := PTE2PA (s2.pteMem t)
            let flags := PTE_FLAGS (s2.pteMem t)
            -- swapwrite(pa, blk)
            let s3 := { s2 with swapStore := upd s2.swapStore blk (s2.mem pa) }
            -- *pte = (blk << 10) | (flags & ~PTE_V)
            let s4 := { s3 with pteMem := upd s3.pteMem t
                                  ((blk <<< 10) ||| (flags &&& (2 ^ 64 - 2))) }
            let s5 := lru_remove victim s4
            match kfree p pa s5 with
            | none => none
            | some s6 => some (0, s6)

/-- kalloc: pop the free list; if empty, invoke swapout once and retry the
    pop once. Returns none on panic, some (none, s) for an out-of-memory
    result (the C code returns the null pointer), some (some pa, s) on
    success (the page filled with junk byte 5). -/
def kalloc (p : Kparams) (s : Machine) : Option (Option Nat × Machine) :=
  match s.freelist with
  | r :: rest => some (some r, { s with freelist := rest, mem := upd s.mem r 5 })
  | [] =>
    match swapout p s with
    | none => none
    | some (ret, s1) =>
      if ret < 0 then some (none, s1)
      else
        match s1.freelist with
        | r :: rest => some (some r, { s1 with freelist := rest, mem := upd s1.mem r 5 })
        | [] => some (none, s1)

/-- swapin: fault fill of entry location t for (pagetable, va). Returns
    none on panic, some (-1, s) on failure, some (0, s) on success. -/
def swapin (p : Kparams) (pagetable va t : Nat) (s : Machine) : Option (Int × Machine) :=
  let swap_offset := s.pteMem t >>> 10
  let swap_blkno := toInt32 swap_offset
  if swap_blkno < 0 ∨ (p.swapPages : Int) ≤ swap_blkno then some (-1, s)
  else
    match kalloc p s with
    | none => none
    | some (none, s1) => some (-1, s1)
    | some (some pa, s1) =>
      -- swapread(pa, swap_blkno)
      let s2 := { s1 with mem := upd s1.mem pa (s1.swapStore swap_blkno.toNat) }
      let flags := PTE_FLAGS (s2.pteMem t) ||| PTE_V ||| PTE_A
      let s3 := { s2 with pteMem := upd s2.pteMem t (PA2PTE pa ||| flags) }
      let s4 :=
        match pa2page p pa with
        | none => s3
        | some pg =>
          let rec2 := { s3.pages pg with pagetable := pagetable, vaddr := va }
          lru_add pg { s3 with pages := upd s3.pages pg rec2 }
      let s5 := swap_free p swap_blkno s4
      some (0, s5)

/-! ### Basic facts about the helpers -/

theorem PTE2PA_aligned (v : Nat) : PTE2PA v % PGSIZE = 0 := by
  unfold PTE2PA PGSIZE
  rw [Nat.shiftLeft_eq]
  norm_num

/-- The swap_alloc scan that fails returns the state unchanged. -/
theorem swapAllocLoop_none_eq (s : Machine) :
    ∀ n i s2, swapAllocLoop s i n = (none, s2) → s2 = s := by
  intro n
  induction n with
  | zero => intro i s2 h; simpa [swapAllocLoop] using (congrArg Prod.snd h).symm
  | succ n ih =>
    intro i s2 h
    rw [swapAllocLoop] at h
    split at h
    · exact absurd (congrArg Prod.fst h) (by simp)
    · exact ih (i + 1) s2 h

/-- The swap_alloc scan that returns slot b: b's bit was clear, b is in the
    scanned range, and the only state change is setting that bit. -/
theorem swapAllocLoop_some_eq (s : Machine) :
    ∀ n i b s2, swapAllocLoop s i n = (some b, s2) →
      s.bitmap (b / 8) &&& (1 <<< (b % 8)) = 0 ∧ i ≤ b ∧ b < i + n ∧
      s2 = { s with bitmap := upd s.bitmap (b / 8) ((s.bitmap (b / 8) ||| (1 <<< (b % 8))) &&& 255) } := by
  intro n
  induction n with
  | zero => intro i b s2 h; exact absurd (congrArg Prod.fst h) (by simp [swapAllocLoop])
  | succ n ih =>
    intro i b s2 h
    rw [swapAllocLoop] at h
    split at h
    · have hb : i = b := by simpa using congrArg Prod.fst h
      subst hb
      have hs : s2 = _ := (congrArg Prod.snd h).symm
      refine ⟨by assumption, le_refl i, by omega, hs⟩
    · obtain ⟨h1, h2, h3, h4⟩ := ih (i + 1) b s2 h
      exact ⟨h1, by omega, by omega, h4⟩

/-! ### C9: kfree validation contract -/

/-- C9: kfree reaches the panic branch exactly when the address is
    misaligned, below the managed range, or at or above its end; for every
    aligned in-range address it junk-fills the page and pushes it on the
    free list without halting. -/
theorem kfree_panic_iff_and_success (p : Kparams) (pa : Nat) (s : Machine) :
    (kfree p pa s = none ↔ pa % PGSIZE ≠ 0 ∨ pa < p.endAddr ∨ p.physTop ≤ pa) ∧
    (pa % PGSIZE = 0 → p.endAddr ≤ pa → pa < p.physTop →
      kfree p pa s = some { s with mem := upd s.mem pa 1, freelist := pa :: s.freelist }) := by
  constructor
  · unfold kfree
    split_ifs with h
    · simpa using h
    · simp [h]
  · intro h1 h2 h3
    unfold kfree
    rw [if_neg]
    push_neg
    exact ⟨h1, by omega, by omega⟩

/-- Shared concrete parameters for witnesses: managed range [4096, 409600),
    8 swap slots. -/
def egP : Kparams := { endAddr := 4096, physTop := 409600, swapPages := 8 }

/-- All-clear pages array. -/
def egEmptyPages : Nat → Page := fun _ => { next := none, prev := none, pagetable := 0, vaddr := 0 }

/-- A machine with no LRU members and everything zeroed. -/
def egM : Machine :=
  { pages := egEmptyPages
  , page_lru_head := none
  , num_lru_pages := 0
  , freelist := []
  , bitmap := fun _ => 0
  , walk := fun _ _ => none
  , pteMem := fun _ => 0
  , mem := fun _ => 0
  , swapStore := fun _ => 0 }

theorem kfree_panic_iff_and_success_witness :
    (8192 % PGSIZE = 0 ∧ egP.endAddr ≤ 8192 ∧ 8192 < egP.physTop) ∧
    kfree egP 8192 egM = some { egM with mem := upd egM.mem 8192 1, freelist := 8192 :: egM.freelist } :=
  ⟨by decide, (kfree_panic_iff_and_success egP 8192 egM).2 (by decide) (by decide) (by decide)⟩

/-! ### C2: swapin rejection of out-of-range slot indices -/

/-- Machine for the C2 counterexample: the entry at location 500 has its
    Valid bit clear and frame-number field 2^32, far outside [0, 8); one
    frame (8192) is on the free list. -/
def exC2M : Machine :=
  { egM with pteMem := fun t => if t = 500 then (2 ^ 32) <<< 10 else 0
           , freelist := [8192] }

/-- C2 counterexample: the entry's Valid bit is clear and its frame-number
    field (2^32) is outside [0, SWAP_PAGES = 8), yet swapin succeeds
    (returns 0, not -1) and rewrites the entry: the C cast to a 32-bit int
    truncates 2^32 to 0, which passes the range check. -/
theorem swapin_out_of_range_cex :
    exC2M.pteMem 500 &&& PTE_V = 0 ∧
    8 ≤ exC2M.pteMem 500 >>> 10 ∧ egP.swapPages = 8 ∧
    (swapin egP 10 100 500 exC2M).map (fun r => (r.1, r.2.pteMem 500)) = some (0, 2113) ∧
    (2113 : Nat) ≠ exC2M.pteMem 500 := by decide

/-- C2 amended: swapin fails (returns -1) and leaves the whole state, in
    particular the translation entry, unchanged, whenever the frame-number
    field TRUNCATED TO A SIGNED 32-BIT INT (as the C cast does) falls
    outside [0, SWAP_PAGES). -/
theorem swapin_out_of_range (p : Kparams) (pt va t : Nat) (s : Machine)
    (hV : s.pteMem t &&& PTE_V = 0)
    (hout : toInt32 (s.pteMem t >>> 10) < 0 ∨
            (p.swapPages : Int) ≤ toInt32 (s.pteMem t >>> 10)) :
    swapin p pt va t s = some (-1, s) := by
  simp only [swapin]
  rw [if_pos hout]

/-- Machine for the C2 witness: frame-number field 2^31, whose 32-bit
    signed truncation is negative. -/
def egC2W : Machine := { egM with pteMem := fun _ => (2 ^ 31) <<< 10 }

theorem swapin_out_of_range_witness :
    ((egC2W.pteMem 0 &&& PTE_V = 0) ∧
     (toInt32 (egC2W.pteMem 0 >>> 10) < 0 ∨
      (egP.swapPages : Int) ≤ toInt32 (egC2W.pteMem 0 >>> 10))) ∧
    swapin egP 10 100 0 egC2W = some (-1, egC2W) :=
  ⟨⟨by decide, Or.inl (by decide)⟩,
   swapin_out_of_range egP 10 100 0 egC2W (by decide) (Or.inl (by decide))⟩

/-! ### C6: kalloc allocation and retry contract -/

/-- C6: kalloc pops the head of a non-empty free list; on an empty list it
    invokes swapout once and retries the pop exactly once (the result is a
    function of that single swapout result); it reports OUT_OF_MEMORY
    (none, the C null pointer) exactly when the free list is empty and
    either eviction fails or the retried pop still finds the list empty. -/
theorem kalloc_spec (p : Kparams) (s : Machine) :
    (∀ r rest, s.freelist = r :: rest →
        kalloc p s = some (some r, { s with freelist := rest, mem := upd s.mem r 5 })) ∧
    (s.freelist = [] → swapout p s = none → kalloc p s = none) ∧
    (∀ ret s1, s.freelist = [] → swapout p s = some (ret, s1) → ret < 0 →
        kalloc p s = some (none, s1)) ∧
    (∀ ret s1 r rest, s.freelist = [] → swapout p s = some (ret, s1) → 0 ≤ ret →
        s1.freelist = r :: rest →
        kalloc p s = some (some r, { s1 with freelist := rest, mem := upd s1.mem r 5 })) ∧
    (∀ ret s1, s.freelist = [] → swapout p s = some (ret, s1) → 0 ≤ ret →
        s1.freelist = [] → kalloc p s = some (none, s1)) ∧
    ((∃ s2, kalloc p s = some (none, s2)) ↔
      s.freelist = [] ∧ ∃ ret s1, swapout p s = some (ret, s1) ∧ (ret < 0 ∨ s1.freelist = [])) := by
  refine ⟨?_, ?_, ?_, ?_, ?_, ?_⟩
  · intro r rest h; unfold kalloc; rw [h]
  · intro h hsw; unfold kalloc; rw [h, hsw]
  · intro ret s1 h hsw hlt; unfold kalloc; rw [h, hsw]; simp only [if_pos hlt]
  · intro ret s1 r rest h hsw hge hf1
    have hnlt : ¬ ret < 0 := by omega
    simp [kalloc, h, hsw, hnlt, hf1]
  · intro ret s1 h hsw hge hf1
    have hnlt : ¬ ret < 0 := by omega
    simp [kalloc, h, hsw, hnlt, hf1]
  · constructor
    · rintro ⟨s2, hk⟩
      unfold kalloc at hk
      cases hf : s.freelist with
      | cons r rest => rw [hf] at hk; simp at hk
      | nil =>
        rw [hf] at hk
        cases hsw : swapout p s with
        | none => rw [hsw] at hk; simp at hk
        | some rs =>
          obtain ⟨ret, s1⟩ := rs
          rw [hsw] at hk
          by_cases hlt : ret < 0
          · exact ⟨rfl, ret, s1, rfl, Or.inl hlt⟩
          · cases hf1 : s1.freelist with
            | cons r rest => simp [hlt, hf1] at hk
            | nil => exact ⟨rfl, ret, s1, rfl, Or.inr hf1⟩
    · rintro ⟨hf, ret, s1, hsw, hor⟩
      refine ⟨s1, ?_⟩
      by_cases hlt : ret < 0
      · simp [kalloc, hf, hsw, hlt]
      · rcases hor with h | hnil
        · exact absurd h hlt
        · simp [kalloc, hf, hsw, hlt, hnil]

/-- A machine whose free list holds one frame. -/
def egMfree : Machine := { egM with freelist := [8192] }

theorem kalloc_spec_witness :
    egMfree.freelist = 8192 :: [] ∧
    kalloc egP egMfree = some (some 8192, { egMfree with freelist := [], mem := upd egMfree.mem 8192 5 }) :=
  ⟨rfl, (kalloc_spec egP egMfree).1 8192 [] rfl⟩

/-! ### C1: the clock scan with every Accessed flag set -/

/-- Machine for C1: a two-frame ring [1, 2], both frames owned and mapped,
    both translation entries Valid with Accessed set. -/
def bugM : Machine :=
  { pages := upd (upd egEmptyPages
      1 { next := some 2, prev := some 2, pagetable := 10, vaddr := 100 })
      2 { next := some 1, prev := some 1, pagetable := 10, vaddr := 200 }
  , page_lru_head := some 1
  , num_lru_pages := 2
  , freelist := []
  , bitmap := fun _ => 0
  , walk := fun pt va => if pt = 10 ∧ va = 100 then some 500
            else if pt = 10 ∧ va = 200 then some 501 else none
  , pteMem := fun t => if t = 500 then (2 <<< 10) ||| 1 ||| 64
              else if t = 501 then (3 <<< 10) ||| 1 ||| 64 else 0
  , mem := fun _ => 0
  , swapStore := fun _ => 0 }

/-- C1 (code bug): on a two-frame LRU ring in which both enrolled frames
    have Valid entries with the Accessed flag set (owner and vaddr set),
    one invocation of swapout does NOT perform a full clock pass: it clears
    only the head frame's Accessed flag (entry 500: 2113 becomes 2049),
    leaves the second frame's flag set (entry 501 stays 3137), moves the
    head and returns -1 without evicting anything (num_lru_pages still 2,
    free list still empty, swap store untouched).  The do-while guard
    `curr != page_lru_head` fires immediately after the second-chance move
    relocates the head. -/
theorem swapout_all_accessed_bug :
    (bugM.pteMem 500 &&& PTE_V ≠ 0 ∧ bugM.pteMem 500 &&& PTE_A ≠ 0 ∧
     bugM.pteMem 501 &&& PTE_V ≠ 0 ∧ bugM.pteMem 501 &&& PTE_A ≠ 0) ∧
    (swapout egP bugM).map
      (fun r => (r.1, r.2.pteMem 500, r.2.pteMem 501, r.2.page_lru_head,
                 r.2.num_lru_pages, r.2.freelist)) =
      some (-1, 2049, 3137, some 2, 2, []) ∧
    (2049 : Nat) &&& PTE_A = 0 ∧ (3137 : Nat) &&& PTE_A ≠ 0 :=
  ⟨by decide, by rfl, by decide, by decide⟩

/-! ### Field-preservation lemmas for the state operations -/

/-- lru_remove changes only pages, page_lru_head and num_lru_pages. -/
theorem lru_remove_fields (pg : Nat) (s : Machine) :
    (lru_remove pg s).pteMem = s.pteMem ∧ (lru_remove pg s).mem = s.mem ∧
    (lru_remove pg s).freelist = s.freelist ∧ (lru_remove pg s).bitmap = s.bitmap ∧
    (lru_remove pg s).walk = s.walk ∧ (lru_remove pg s).swapStore = s.swapStore := by
  unfold lru_remove
  dsimp only
  split
  · exact ⟨rfl, rfl, rfl, rfl, rfl, rfl⟩
  · split
    · exact ⟨rfl, rfl, rfl, rfl, rfl, rfl⟩
    · exact ⟨rfl, rfl, rfl, rfl, rfl, rfl⟩

/-- lru_add changes only pages, page_lru_head and num_lru_pages. -/
theorem lru_add_fields (pg : Nat) (s : Machine) :
    (lru_add pg s).pteMem = s.pteMem ∧ (lru_add pg s).mem = s.mem ∧
    (lru_add pg s).freelist = s.freelist ∧ (lru_add pg s).bitmap = s.bitmap ∧
    (lru_add pg s).walk = s.walk ∧ (lru_add pg s).swapStore = s.swapStore := by
  unfold lru_add
  dsimp only
  split
  · exact ⟨rfl, rfl, rfl, rfl, rfl, rfl⟩
  · split
    · exact ⟨rfl, rfl, rfl, rfl, rfl, rfl⟩
    · exact ⟨rfl, rfl, rfl, rfl, rfl, rfl⟩

/-- lru_move_to_tail_locked changes only pages and page_lru_head. -/
theorem lru_move_fields (pg : Nat) (s : Machine) :
    (lru_move_to_tail_locked pg s).pteMem = s.pteMem ∧
    (lru_move_to_tail_locked pg s).mem = s.mem ∧
    (lru_move_to_tail_locked pg s).freelist = s.freelist ∧
    (lru_move_to_tail_locked pg s).bitmap = s.bitmap ∧
    (lru_move_to_tail_locked pg s).walk = s.walk ∧
    (lru_move_to_tail_locked pg s).swapStore = s.swapStore ∧
    (lru_move_to_tail_locked pg s).num_lru_pages = s.num_lru_pages := by
  unfold lru_move_to_tail_locked
  dsimp only
  split
  · exact ⟨rfl, rfl, rfl, rfl, rfl, rfl, rfl⟩
  · split
    · split
      · exact ⟨rfl, rfl, rfl, rfl, rfl, rfl, rfl⟩
      · split
        · exact ⟨rfl, rfl, rfl, rfl, rfl, rfl, rfl⟩
        · exact ⟨rfl, rfl, rfl, rfl, rfl, rfl, rfl⟩
    · exact ⟨rfl, rfl, rfl, rfl, rfl, rfl, rfl⟩

/-! ### Bit-level helpers for the swapped-out encoding -/

/-- The flag part written by swapout is below 2^10. -/
theorem flags_part_lt (e : Nat) : PTE_FLAGS e &&& (2 ^ 64 - 2) < 2 ^ 10 := by
  have h1 : PTE_FLAGS e &&& (2 ^ 64 - 2) ≤ PTE_FLAGS e := Nat.and_le_left
  have h2 : PTE_FLAGS e ≤ 1023 := Nat.and_le_right
  omega

/-- Recover the slot index from the swapped-out encoding. -/
theorem encode_shiftRight (blk low : Nat) (hlow : low < 2 ^ 10) :
    ((blk <<< 10) ||| low) >>> 10 = blk := by
  apply Nat.eq_of_testBit_eq
  intro j
  have hfalse : low.testBit (10 + j) = false :=
    Nat.testBit_lt_two_pow (lt_of_lt_of_le hlow (Nat.pow_le_pow_right (by norm_num) (by omega)))
  simp [Nat.testBit_shiftRight, Nat.testBit_or, Nat.testBit_shiftLeft, hfalse]

/-- One step of the clock scan: a candidate with owner and vaddr set, a
    Valid translation entry and a clear Accessed flag is the victim at once,
    and the scan makes no state change. -/
theorem clockScan_head_victim (s : Machine) (v t : Nat) (rounds : Int) (fuel : Nat)
    (hpt : (s.pages v).pagetable ≠ 0) (hva : (s.pages v).vaddr ≠ 0)
    (hw : s.walk (s.pages v).pagetable (s.pages v).vaddr = some t)
    (hV : s.pteMem t &&& PTE_V ≠ 0) (hA : s.pteMem t &&& PTE_A = 0) :
    clockScan s v rounds (fuel + 1) = some (some v, s, 1) := by
  rw [clockScan]
  rw [if_neg (by push_neg; exact ⟨hpt, hva⟩)]
  rw [hw]
  dsimp only
  rw [if_neg hV, if_pos hA]

/-- The machine state of swapout's success path just before the victim is
    removed: slot blk's bitmap bit set, the victim's content persisted to
    slot blk, and the victim's entry rewritten to the swapped-out encoding
    (a restatement of the updates swapout performs, for theorem statements). -/
def swapoutMid (s : Machine) (t blk : Nat) : Machine :=
  { s with bitmap := upd s.bitmap (blk / 8) ((s.bitmap (blk / 8) ||| (1 <<< (blk % 8))) &&& 255)
         , swapStore := upd s.swapStore blk (s.mem (PTE2PA (s.pteMem t)))
         , pteMem := upd s.pteMem t ((blk <<< 10) ||| (PTE_FLAGS (s.pteMem t) &&& (2 ^ 64 - 2))) }

/-- The final machine state of swapout's success path: victim unenrolled,
    its frame junk-filled and pushed on the free list. -/
def swapoutFinal (s : Machine) (v t blk : Nat) : Machine :=
  { lru_remove v (swapoutMid s t blk) with
      mem := upd (lru_remove v (swapoutMid s t blk)).mem (PTE2PA (s.pteMem t)) 1
    , freelist := PTE2PA (s.pteMem t) :: (lru_remove v (swapoutMid s t blk)).freelist }

/-- Symbolic execution of a successful swapout: the head frame is a Resident
    victim (owner and vaddr set, entry Valid, Accessed clear), a slot blk is
    allocated, and the page address passes kfree validation. -/
theorem swapout_resident_run (p : Kparams) (s : Machine) (v t blk : Nat)
    (hh : s.page_lru_head = some v)
    (hpt : (s.pages v).pagetable ≠ 0) (hva : (s.pages v).vaddr ≠ 0)
    (hw : s.walk (s.pages v).pagetable (s.pages v).vaddr = some t)
    (hV : s.pteMem t &&& PTE_V ≠ 0) (hA : s.pteMem t &&& PTE_A = 0)
    (halloc : (swap_alloc p s).1 = some blk)
    (hlo : p.endAddr ≤ PTE2PA (s.pteMem t)) (hhi : PTE2PA (s.pteMem t) < p.physTop) :
    swapout p s = some (0, swapoutFinal s v t blk) ∧ blk < p.swapPages := by
  have hEq : swap_alloc p s = (some blk, (swap_alloc p s).2) := by
    rw [← halloc]
  obtain ⟨hbit, hble, hblt, hs2⟩ :=
    swapAllocLoop_some_eq s p.swapPages 0 blk (swap_alloc p s).2 hEq
  have hfuel : s.num_lru_pages.toNat + 2 = (s.num_lru_pages.toNat + 1) + 1 := by omega
  have hscan := clockScan_head_victim s v t 0 (s.num_lru_pages.toNat + 1) hpt hva hw hV hA
  refine ⟨?_, by omega⟩
  unfold swapout
  rw [hh]
  try dsimp only
  rw [hfuel, hscan]
  try dsimp only
  rw [hEq, hs2]
  try dsimp only
  rw [hw]
  try dsimp only
  rw [if_neg hV]
  try dsimp only
  unfold kfree
  rw [if_neg (by push_neg; exact ⟨PTE2PA_aligned _, hlo, by omega⟩)]
  unfold swapoutFinal swapoutMid
  rfl

/-- testBit of the mask ~PTE_V over 64 bits. -/
theorem evenMask_testBit (b : Nat) :
    (2 ^ 64 - 2 : Nat).testBit b = (decide (b ≥ 1) && decide (b - 1 < 63)) := by
  have h : (2 ^ 64 - 2 : Nat) = (2 ^ 63 - 1) <<< 1 := by norm_num [Nat.shiftLeft_eq]
  rw [h, Nat.testBit_shiftLeft, Nat.testBit_two_pow_sub_one]

/-- Projections of the final swapout state. -/
theorem swapoutFinal_fields (s : Machine) (v t blk : Nat) :
    (swapoutFinal s v t blk).pteMem =
      upd s.pteMem t ((blk <<< 10) ||| (PTE_FLAGS (s.pteMem t) &&& (2 ^ 64 - 2))) ∧
    (swapoutFinal s v t blk).mem = upd s.mem (PTE2PA (s.pteMem t)) 1 ∧
    (swapoutFinal s v t blk).freelist = PTE2PA (s.pteMem t) :: s.freelist ∧
    (swapoutFinal s v t blk).swapStore = upd s.swapStore blk (s.mem (PTE2PA (s.pteMem t))) ∧
    (swapoutFinal s v t blk).walk = s.walk := by
  unfold swapoutFinal
  refine ⟨?_, ?_, ?_, ?_, ?_⟩
  · show (lru_remove v (swapoutMid s t blk)).pteMem = _
    rw [(lru_remove_fields v _).1]; rfl
  · show upd (lru_remove v (swapoutMid s t blk)).mem (PTE2PA (s.pteMem t)) 1 = _
    rw [(lru_remove_fields v _).2.1]; rfl
  · show PTE2PA (s.pteMem t) :: (lru_remove v (swapoutMid s t blk)).freelist = _
    rw [(lru_remove_fields v _).2.2.1]; rfl
  · show (lru_remove v (swapoutMid s t blk)).swapStore = _
    rw [(lru_remove_fields v _).2.2.2.2.2]; rfl
  · show (lru_remove v (swapoutMid s t blk)).walk = _
    rw [(lru_remove_fields v _).2.2.2.2.1]; rfl

/-- C5: the swapped-out encoding is bit-exact.  Under the C3/C5 scenario
    (a Resident victim at the head, slot blk allocated, kfree validation
    passing), swapout succeeds and the victim's new translation-entry value
    has the Valid bit clear, every other low-10 flag bit equal to the prior
    entry's, and the frame-number field (bits 10 and up) equal to blk. -/
theorem swapout_swapped_encoding (p : Kparams) (s : Machine) (v t blk : Nat)
    (hh : s.page_lru_head = some v)
    (hpt : (s.pages v).pagetable ≠ 0) (hva : (s.pages v).vaddr ≠ 0)
    (hw : s.walk (s.pages v).pagetable (s.pages v).vaddr = some t)
    (hV : s.pteMem t &&& PTE_V ≠ 0) (hA : s.pteMem t &&& PTE_A = 0)
    (halloc : (swap_alloc p s).1 = some blk)
    (hlo : p.endAddr ≤ PTE2PA (s.pteMem t)) (hhi : PTE2PA (s.pteMem t) < p.physTop) :
    ∃ S, swapout p s = some (0, S) ∧
      S.pteMem t &&& PTE_V = 0 ∧
      (∀ b, b < 10 → b ≠ 0 → (S.pteMem t).testBit b = (s.pteMem t).testBit b) ∧
      S.pteMem t >>> 10 = blk := by
  obtain ⟨hrun, hblt⟩ :=
    swapout_resident_run p s v t blk hh hpt hva hw hV hA halloc hlo hhi
  have hpte : (swapoutFinal s v t blk).pteMem t =
      (blk <<< 10) ||| (PTE_FLAGS (s.pteMem t) &&& (2 ^ 64 - 2)) := by
    rw [(swapoutFinal_fields s v t blk).1]; simp [upd]
  refine ⟨swapoutFinal s v t blk, hrun, ?_, ?_, ?_⟩
  · rw [hpte]
    have h0 : ((blk <<< 10) ||| (PTE_FLAGS (s.pteMem t) &&& (2 ^ 64 - 2))).testBit 0 = false := by
      simp [Nat.testBit_or, Nat.testBit_shiftLeft, Nat.testBit_and, evenMask_testBit]
    unfold PTE_V
    rw [Nat.and_one_is_mod]
    rw [Nat.testBit_zero] at h0
    simp only [decide_eq_false_iff_not] at h0
    omega
  · intro b hb hb0
    rw [hpte]
    have h1023 : (1023 : Nat).testBit b = true := by
      rw [show (1023 : Nat) = 2 ^ 10 - 1 by norm_num, Nat.testBit_two_pow_sub_one]
      simpa using hb
    have hmask : (2 ^ 64 - 2 : Nat).testBit b = true := by
      rw [evenMask_testBit]
      simp only [Bool.and_eq_true, decide_eq_true_eq]
      omega
    have hsl : (blk <<< 10).testBit b = false := by
      rw [Nat.testBit_shiftLeft]
      simp [show ¬(b ≥ 10) by omega]
    simp only [PTE_FLAGS, Nat.testBit_or, Nat.testBit_and, hsl, h1023, hmask,
               Bool.and_true, Bool.false_or]
  · rw [hpte]
    exact encode_shiftRight blk _ (flags_part_lt (s.pteMem t))

/-- A single-frame LRU ring with a Resident, Accessed-clear victim whose
    frame (8192) holds content token 77. -/
def egC5M : Machine :=
  { pages := upd egEmptyPages 1 { next := some 1, prev := some 1, pagetable := 10, vaddr := 100 }
  , page_lru_head := some 1
  , num_lru_pages := 1
  , freelist := []
  , bitmap := fun _ => 0
  , walk := fun pt va => if pt = 10 ∧ va = 100 then some 500 else none
  , pteMem := fun t => if t = 500 then (2 <<< 10) ||| 15 else 0
  , mem := fun pa => if pa = 8192 then 77 else 0
  , swapStore := fun _ => 0 }

theorem swapout_swapped_encoding_witness :
    (egC5M.page_lru_head = some 1 ∧ (swap_alloc egP egC5M).1 = some 0 ∧
     egC5M.pteMem 500 &&& PTE_V ≠ 0 ∧ egC5M.pteMem 500 &&& PTE_A = 0) ∧
    (∃ S, swapout egP egC5M = some (0, S) ∧
      S.pteMem 500 &&& PTE_V = 0 ∧
      (∀ b, b < 10 → b ≠ 0 → (S.pteMem 500).testBit b = (egC5M.pteMem 500).testBit b) ∧
      S.pteMem 500 >>> 10 = 0) :=
  ⟨⟨by decide, by decide, by decide, by decide⟩,
   swapout_swapped_encoding egP egC5M 1 500 0 (by decide) (by decide) (by decide) (by decide)
     (by decide) (by decide) (by decide) (by decide) (by decide)⟩

/-- The machine state of swapin's success path (a restatement of the
    updates swapin performs after its range check and a successful pop of
    frame pa, for theorem statements): junk fill, swapread into pa, entry
    rewrite, metadata update and LRU enrollment, slot free. -/
def swapinFinal (p : Kparams) (ptb va t pa blk : Nat) (rest : List Nat) (s : Machine) : Machine :=
  let s7 : Machine := { s with freelist := rest, mem := upd s.mem pa 5 }
  let s8 : Machine := { s7 with mem := upd s7.mem pa (s7.swapStore blk) }
  let s9 : Machine := { s8 with pteMem := upd s8.pteMem t (PA2PTE pa ||| (PTE_FLAGS (s8.pteMem t) ||| PTE_V ||| PTE_A)) }
  let s10 : Machine :=
    match pa2page p pa with
    | none => s9
    | some pg =>
      let rec2 := { s9.pages pg with pagetable := ptb, vaddr := va }
      lru_add pg { s9 with pages := upd s9.pages pg rec2 }
  swap_free p blk s10

/-- Symbolic execution of a successful swapin: the decoded slot index is
    blk, in range, and the free list is non-empty so kalloc pops its head. -/
theorem swapin_success_run (p : Kparams) (ptb va t : Nat) (s : Machine)
    (pa blk : Nat) (rest : List Nat)
    (hfl : s.freelist = pa :: rest)
    (hdec : toInt32 (s.pteMem t >>> 10) = (blk : Int))
    (hblk : blk < p.swapPages) :
    swapin p ptb va t s = some (0, swapinFinal p ptb va t pa blk rest s) := by
  unfold swapin
  try dsimp only
  rw [hdec]
  rw [if_neg (by push_neg; exact ⟨Int.ofNat_nonneg blk, by exact_mod_cast hblk⟩)]
  unfold kalloc
  rw [hfl]
  dsimp only
  unfold swapinFinal
  rfl

/-- The C cast to int is the identity below 2^31. -/
theorem toInt32_of_lt (n : Nat) (h : n < 2 ^ 31) : toInt32 n = (n : Int) := by
  unfold toInt32
  rw [Nat.mod_eq_of_lt (by omega)]
  rw [if_pos h]
  omega

/-- swap_free changes only the bitmap. -/
theorem swap_free_fields (p : Kparams) (b : Int) (s : Machine) :
    (swap_free p b s).pteMem = s.pteMem ∧ (swap_free p b s).mem = s.mem ∧
    (swap_free p b s).freelist = s.freelist ∧ (swap_free p b s).pages = s.pages ∧
    (swap_free p b s).swapStore = s.swapStore := by
  unfold swap_free
  split
  · exact ⟨rfl, rfl, rfl, rfl, rfl⟩
  · exact ⟨rfl, rfl, rfl, rfl, rfl⟩

/-- Low flag bits other than Valid survive the swapped-out encoding. -/
theorem swapped_encoding_testBit (e blk b : Nat) (hb : b < 10) (hb0 : b ≠ 0) :
    ((blk <<< 10) ||| (PTE_FLAGS e &&& (2 ^ 64 - 2))).testBit b = e.testBit b := by
  have h1023 : (1023 : Nat).testBit b = true := by
    rw [show (1023 : Nat) = 2 ^ 10 - 1 by norm_num, Nat.testBit_two_pow_sub_one]
    simpa using hb
  have hmask : (2 ^ 64 - 2 : Nat).testBit b = true := by
    rw [evenMask_testBit]
    simp only [Bool.and_eq_true, decide_eq_true_eq]
    omega
  have hsl : (blk <<< 10).testBit b = false := by
    rw [Nat.testBit_shiftLeft]
    simp [show ¬(b ≥ 10) by omega]
  simp only [PTE_FLAGS, Nat.testBit_or, Nat.testBit_and, hsl, h1023, hmask,
             Bool.and_true, Bool.false_or]

/-- Low flag bits other than Valid and Accessed survive the resident
    rewrite performed by swapin. -/
theorem residentRewrite_testBit (pa X b : Nat) (hb : b < 10) (hb0 : b ≠ 0) (hb6 : b ≠ 6) :
    (PA2PTE pa ||| (PTE_FLAGS X ||| PTE_V ||| PTE_A)).testBit b = X.testBit b := by
  have hpa : (PA2PTE pa).testBit b = false := by
    unfold PA2PTE
    rw [Nat.testBit_shiftLeft]
    simp [show ¬(b ≥ 10) by omega]
  have h1 : (PTE_V : Nat).testBit b = false := by
    unfold PTE_V
    rw [show (1 : Nat) = 2 ^ 0 by norm_num]
    exact Nat.testBit_two_pow_of_ne (by omega)
  have h64 : (PTE_A : Nat).testBit b = false := by
    unfold PTE_A
    rw [show (64 : Nat) = 2 ^ 6 by norm_num]
    exact Nat.testBit_two_pow_of_ne (by omega)
  have h1023 : (1023 : Nat).testBit b = true := by
    rw [show (1023 : Nat) = 2 ^ 10 - 1 by norm_num, Nat.testBit_two_pow_sub_one]
    simpa using hb
  simp only [PTE_FLAGS, Nat.testBit_or, Nat.testBit_and, hpa, h1, h64, h1023,
             Bool.and_true, Bool.or_false, Bool.false_or]

/-- C4: round trip.  Under the resident-victim scenario, swapout followed
    by swapin of the produced entry succeeds, the slot index swapin decodes
    equals the slot index swapout encoded, the restored frame holds the
    byte-identical content the victim frame held before eviction, and every
    low-10 permission bit other than Valid (bit 0) and Accessed (bit 6) is
    restored identically. -/
theorem swapout_swapin_round_trip (p : Kparams) (s : Machine) (v t blk : Nat)
    (hh : s.page_lru_head = some v)
    (hpt : (s.pages v).pagetable ≠ 0) (hva : (s.pages v).vaddr ≠ 0)
    (hw : s.walk (s.pages v).pagetable (s.pages v).vaddr = some t)
    (hV : s.pteMem t &&& PTE_V ≠ 0) (hA : s.pteMem t &&& PTE_A = 0)
    (halloc : (swap_alloc p s).1 = some blk)
    (hlo : p.endAddr ≤ PTE2PA (s.pteMem t)) (hhi : PTE2PA (s.pteMem t) < p.physTop)
    (hsp : p.swapPages ≤ 2 ^ 31) :
    ∃ S S2, swapout p s = some (0, S) ∧
      swapin p (s.pages v).pagetable (s.pages v).vaddr t S = some (0, S2) ∧
      S.pteMem t >>> 10 = blk ∧
      toInt32 (S.pteMem t >>> 10) = (blk : Int) ∧
      S2.mem (PTE2PA (s.pteMem t)) = s.mem (PTE2PA (s.pteMem t)) ∧
      (∀ b, b < 10 → b ≠ 0 → b ≠ 6 → (S2.pteMem t).testBit b = (s.pteMem t).testBit b) := by
  obtain ⟨hrun, hblt⟩ :=
    swapout_resident_run p s v t blk hh hpt hva hw hV hA halloc hlo hhi
  obtain ⟨hpteF, hmemF, hflF, hssF, hwkF⟩ := swapoutFinal_fields s v t blk
  have hpte : (swapoutFinal s v t blk).pteMem t =
      (blk <<< 10) ||| (PTE_FLAGS (s.pteMem t) &&& (2 ^ 64 - 2)) := by
    rw [hpteF]; simp [upd]
  have hdecode : (swapoutFinal s v t blk).pteMem t >>> 10 = blk := by
    rw [hpte]; exact encode_shiftRight blk _ (flags_part_lt (s.pteMem t))
  have hdec2 : toInt32 ((swapoutFinal s v t blk).pteMem t >>> 10) = (blk : Int) := by
    rw [hdecode]; exact toInt32_of_lt blk (by omega)
  have hrun2 := swapin_success_run p (s.pages v).pagetable (s.pages v).vaddr t
    (swapoutFinal s v t blk) (PTE2PA (s.pteMem t)) blk s.freelist hflF hdec2 hblt
  refine ⟨swapoutFinal s v t blk,
          swapinFinal p (s.pages v).pagetable (s.pages v).vaddr t (PTE2PA (s.pteMem t)) blk
            s.freelist (swapoutFinal s v t blk),
          hrun, hrun2, hdecode, hdec2, ?_, ?_⟩
  · unfold swapinFinal
    dsimp only
    rw [(swap_free_fields p blk _).2.1]
    cases hpg : pa2page p (PTE2PA (s.pteMem t)) with
    | none =>
      dsimp only
      rw [hssF]
      simp [upd]
    | some pg =>
      dsimp only
      rw [(lru_add_fields pg _).2.1]
      dsimp only
      rw [hssF]
      simp [upd]
  · intro b hb hb0 hb6
    have hfinalpte : (swapinFinal p (s.pages v).pagetable (s.pages v).vaddr t
        (PTE2PA (s.pteMem t)) blk s.freelist (swapoutFinal s v t blk)).pteMem t =
        PA2PTE (PTE2PA (s.pteMem t)) |||
          (PTE_FLAGS ((swapoutFinal s v t blk).pteMem t) ||| PTE_V ||| PTE_A) := by
      unfold swapinFinal
      dsimp only
      rw [(swap_free_fields p blk _).1]
      cases hpg : pa2page p (PTE2PA (s.pteMem t)) with
      | none => dsimp only; simp [upd]
      | some pg =>
        dsimp only
        rw [(lru_add_fields pg _).1]
        dsimp only
        simp [upd]
    rw [hfinalpte]
    rw [residentRewrite_testBit _ _ b hb hb0 hb6]
    rw [hpte]
    exact swapped_encoding_testBit (s.pteMem t) blk b hb hb0

theorem swapout_swapin_round_trip_witness :
    (egC5M.page_lru_head = some 1 ∧ (swap_alloc egP egC5M).1 = some 0 ∧
     egP.swapPages ≤ 2 ^ 31 ∧ egC5M.mem (PTE2PA (egC5M.pteMem 500)) = 77) ∧
    (∃ S S2, swapout egP egC5M = some (0, S) ∧
      swapin egP (egC5M.pages 1).pagetable (egC5M.pages 1).vaddr 500 S = some (0, S2) ∧
      S.pteMem 500 >>> 10 = 0 ∧
      toInt32 (S.pteMem 500 >>> 10) = ((0 : Nat) : Int) ∧
      S2.mem (PTE2PA (egC5M.pteMem 500)) = egC5M.mem (PTE2PA (egC5M.pteMem 500)) ∧
      (∀ b, b < 10 → b ≠ 0 → b ≠ 6 → (S2.pteMem 500).testBit b = (egC5M.pteMem 500).testBit b)) :=
  ⟨⟨by decide, by decide, by decide, by decide⟩,
   swapout_swapin_round_trip egP egC5M 1 500 0 (by decide) (by decide) (by decide) (by decide)
     (by decide) (by decide) (by decide) (by decide) (by decide) (by decide)⟩

/-! ### The LRU ring as an abstract list

`Seg g a l z` states that the nodes of l are consecutively linked in the
page map g, the first node's prev pointing to a, each node's next pointing
to its successor, each successor's prev pointing back, and the last node's
next pointing to z.  `RingOf g l` closes the chain into a circular ring:
the list's last node is prev of its head and its head follows its last. -/

def Seg (g : Nat → Page) : Nat → List Nat → Nat → Prop
  | _, [], _ => True
  | a, b :: l, z => (g b).prev = some a ∧ (g b).next = some (l.headD z) ∧ Seg g b l z

def RingOf (g : Nat → Page) : List Nat → Prop
  | [] => True
  | b :: l => Seg g (l.getLastD b) (b :: l) b

theorem headD_append {α : Type} (xs ys : List α) (d : α) :
    (xs ++ ys).headD d = xs.headD (ys.headD d) := by
  cases xs <;> simp

theorem getLastD_append {α : Type} (xs ys : List α) (d : α) :
    (xs ++ ys).getLastD d = ys.getLastD (xs.getLastD d) := by
  induction xs generalizing d with
  | nil => simp
  | cons x xs ih =>
    rw [List.cons_append, List.getLastD_cons, ih, List.getLastD_cons]

theorem Seg_append (g : Nat → Page) (l1 l2 : List Nat) :
    ∀ a z, Seg g a (l1 ++ l2) z ↔ Seg g a l1 (l2.headD z) ∧ Seg g (l1.getLastD a) l2 z := by
  induction l1 with
  | nil => intro a z; simp [Seg]
  | cons b l1 ih =>
    intro a z
    rw [List.cons_append]
    show (_ ∧ _ ∧ Seg g b (l1 ++ l2) z) ↔ _
    rw [ih b z]
    rw [List.getLastD_cons]
    constructor
    · rintro ⟨h1, h2, h3, h4⟩
      refine ⟨⟨h1, ?_, h3⟩, h4⟩
      rwa [headD_append] at h2
    · rintro ⟨⟨h1, h2, h3⟩, h4⟩
      refine ⟨h1, ?_, h3, h4⟩
      rwa [headD_append]

theorem Seg_congr (g g' : Nat → Page) (l : List Nat) (hg : ∀ j ∈ l, g' j = g j) :
    ∀ a z, Seg g a l z → Seg g' a l z := by
  induction l with
  | nil => intro a z h; trivial
  | cons b l ih =>
    intro a z h
    obtain ⟨h1, h2, h3⟩ := h
    have hb : g' b = g b := hg b (by simp)
    exact ⟨by rw [hb]; exact h1, by rw [hb]; exact h2,
           ih (fun j hj => hg j (by simp [hj])) b z h3⟩

/-- A ring is invariant under rotation. -/
theorem RingOf_swap (g : Nat → Page) (xs ys : List Nat) :
    RingOf g (xs ++ ys) → RingOf g (ys ++ xs) := by
  cases hx : xs with
  | nil => simp
  | cons x xs2 =>
    cases hy : ys with
    | nil => simp
    | cons y ys2 =>
      intro h
      show Seg g ((ys2 ++ x :: xs2).getLastD y) (y :: (ys2 ++ x :: xs2)) y
      have h2 : Seg g ((xs2 ++ y :: ys2).getLastD x) (x :: (xs2 ++ y :: ys2)) x := h
      rw [show x :: (xs2 ++ y :: ys2) = (x :: xs2) ++ (y :: ys2) by simp] at h2
      rw [Seg_append] at h2
      obtain ⟨ha, hb⟩ := h2
      rw [show y :: (ys2 ++ x :: xs2) = (y :: ys2) ++ (x :: xs2) by simp]
      rw [Seg_append]
      constructor
      · have : (y :: ys2).headD ((x :: xs2).getLastD y) = y := by simp
        rw [getLastD_append, List.getLastD_cons]
        rw [List.getLastD_cons] at hb
        simpa using hb
      · rw [getLastD_append] at ha ⊢
        rw [List.getLastD_cons] at ha ⊢
        simp only [List.headD_cons] at ha ⊢
        simpa using ha

/-- Splicing the front node i out of the ring i :: rest leaves rest a ring,
    for any page map g' that sets prev of the ring's new head (NX) to the
    ring's last node (PV), next of PV to NX, and agrees with g elsewhere. -/
theorem ring_splice (g g' : Nat → Page) (i PV NX : Nat) (rest : List Nat)
    (hnd : (i :: rest).Nodup) (hne : rest ≠ [])
    (hPV : rest.getLastD i = PV) (hNX : rest.headD i = NX)
    (hring : RingOf g (i :: rest))
    (hother : ∀ j, j ∈ rest → j ≠ PV → j ≠ NX → g' j = g j)
    (hNXprev : (g' NX).prev = some PV)
    (hNXnext : NX ≠ PV → (g' NX).next = (g NX).next)
    (hPVnext : (g' PV).next = some NX)
    (hPVprev : PV ≠ NX → (g' PV).prev = (g PV).prev) :
    RingOf g' rest := by
  have hseg : Seg g (rest.getLastD i) (i :: rest) i := hring
  obtain ⟨hip, hin, hseg2⟩ := hseg
  cases hrest : rest with
  | nil => exact absurd hrest hne
  | cons x r2 =>
  subst hrest
  have hx : x = NX := by rw [← hNX]; rfl
  subst hx
  rw [List.getLastD_cons] at hPV
  obtain ⟨hxp, hxn, hseg3⟩ := hseg2
  have hndr : (x :: r2).Nodup := (List.nodup_cons.mp hnd).2
  have hNXr2 : x ∉ r2 := (List.nodup_cons.mp hndr).1
  have hndr2 : r2.Nodup := (List.nodup_cons.mp hndr).2
  show Seg g' (r2.getLastD x) (x :: r2) x
  rw [hPV]
  refine ⟨by rw [hNXprev], ?_, ?_⟩
  · cases hr2 : r2 with
    | nil =>
      have hPVx : PV = x := by rw [← hPV, hr2]; rfl
      show (g' x).next = some x
      exact hPVx ▸ hPVnext
    | cons c r3 =>
      have hPVmem : PV ∈ r2 := by
        rw [← hPV, hr2, List.getLastD_cons]
        exact List.getLastD_mem_cons r3 c
      have hne2 : x ≠ PV := fun he => hNXr2 (he ▸ hPVmem)
      rw [hNXnext hne2, hxn]
      simp [hr2]
  · rcases hr2 : r2 with - | ⟨c, r3⟩
    · trivial
    · have hner2 : r2 ≠ [] := by rw [hr2]; simp
      rw [← hr2]
      have hL : r2.getLast hner2 = PV := by
        rw [← hPV, List.getLastD_eq_getLast?, List.getLast?_eq_getLast r2 hner2]
        rfl
      have hPVmem : PV ∈ r2 := by rw [← hL]; exact List.getLast_mem hner2
      have hPVne : PV ≠ x := fun he => hNXr2 (he ▸ hPVmem)
      have hdecomp : r2.dropLast ++ [PV] = r2 := by
        rw [← hL]; exact List.dropLast_append_getLast hner2
      have hnodupD : (r2.dropLast ++ [PV]).Nodup := by rw [hdecomp]; exact hndr2
      have hPVdrop : PV ∉ r2.dropLast := fun hmem =>
        (List.disjoint_of_nodup_append hnodupD) hmem (by simp)
      rw [← hdecomp] at hseg3 ⊢
      rw [Seg_append] at hseg3 ⊢
      obtain ⟨hmid, hlast⟩ := hseg3
      obtain ⟨hLp, hLn, -⟩ := hlast
      constructor
      · refine Seg_congr g g' r2.dropLast (fun j hj => ?_) x _ hmid
        have hjr2 : j ∈ r2 := by
          rw [← hdecomp]
          exact List.mem_append_left _ hj
        refine hother j (List.mem_cons_of_mem x hjr2)
          (fun he => hPVdrop (he ▸ hj)) (fun he => hNXr2 (he ▸ hjr2))
      · exact ⟨by rw [hPVprev hPVne]; exact hLp, by rw [hPVnext]; rfl, trivial⟩

/-- Inserting a fresh node i at the tail of the ring rest (whose head is h
    and last node is L) yields the ring rest ++ [i], for any page map g'
    that links i between L and h and agrees with g elsewhere. -/
theorem ring_insert (g g' : Nat → Page) (i h L : Nat) (rest : List Nat)
    (hnd : rest.Nodup) (hne : rest ≠ []) (hi : i ∉ rest)
    (hh : rest.headD 0 = h) (hL : rest.getLastD 0 = L)
    (hring : RingOf g rest)
    (hother : ∀ j, j ∈ rest → j ≠ i → j ≠ h → j ≠ L → g' j = g j)
    (hiprev : (g' i).prev = some L) (hinext : (g' i).next = some h)
    (hhprev : (g' h).prev = some i)
    (hhnext : h ≠ L → (g' h).next = (g h).next)
    (hLnext : (g' L).next = some i)
    (hLprev : L ≠ h → (g' L).prev = (g L).prev) :
    RingOf g' (rest ++ [i]) := by
  cases hrest : rest with
  | nil => exact absurd hrest hne
  | cons x r2 =>
  subst hrest
  have hx : x = h := by rw [← hh]; rfl
  subst hx
  rw [List.getLastD_cons] at hL
  have hseg0 : Seg g (r2.getLastD x) (x :: r2) x := hring
  obtain ⟨hxp, hxn, hseg⟩ := hseg0
  have hxr2 : x ∉ r2 := (List.nodup_cons.mp hnd).1
  have hndr2 : r2.Nodup := (List.nodup_cons.mp hnd).2
  have hix : i ≠ x := fun he => hi (by simp [he])
  have hir2 : i ∉ r2 := fun hm => hi (by simp [hm])
  show RingOf g' (x :: (r2 ++ [i]))
  show Seg g' ((r2 ++ [i]).getLastD x) (x :: (r2 ++ [i])) x
  have hgl : (r2 ++ [i]).getLastD x = i := by rw [getLastD_append]; rfl
  rw [hgl]
  refine ⟨by rw [hhprev], ?_, ?_⟩
  · cases hr2 : r2 with
    | nil =>
      have hLx : L = x := by rw [← hL, hr2]; rfl
      show (g' x).next = some i
      exact hLx ▸ hLnext
    | cons c r3 =>
      have hLmem : L ∈ r2 := by
        rw [← hL, hr2, List.getLastD_cons]
        exact List.getLastD_mem_cons r3 c
      have hne2 : x ≠ L := fun he => hxr2 (he ▸ hLmem)
      rw [hhnext hne2, hxn]
      simp [hr2]
  · rw [Seg_append]
    constructor
    · show Seg g' x r2 ([i].headD x)
      rcases hr2 : r2 with - | ⟨c, r3⟩
      · trivial
      · have hner2 : r2 ≠ [] := by rw [hr2]; simp
        rw [← hr2]
        have hLg : r2.getLast hner2 = L := by
          rw [← hL, List.getLastD_eq_getLast?, List.getLast?_eq_getLast r2 hner2]
          rfl
        have hLmem : L ∈ r2 := by rw [← hLg]; exact List.getLast_mem hner2
        have hLx : L ≠ x := fun he => hxr2 (he ▸ hLmem)
        have hdecomp : r2.dropLast ++ [L] = r2 := by
          rw [← hLg]; exact List.dropLast_append_getLast hner2
        have hnodupD : (r2.dropLast ++ [L]).Nodup := by rw [hdecomp]; exact hndr2
        have hLdrop : L ∉ r2.dropLast := fun hmem =>
          (List.disjoint_of_nodup_append hnodupD) hmem (by simp)
        rw [← hdecomp] at hseg ⊢
        rw [Seg_append] at hseg ⊢
        obtain ⟨hmid, hlast⟩ := hseg
        obtain ⟨hLp, hLn, -⟩ := hlast
        constructor
        · refine Seg_congr g g' r2.dropLast (fun j hj => ?_) x _ hmid
          have hjr2 : j ∈ r2 := by
            rw [← hdecomp]
            exact List.mem_append_left _ hj
          refine hother j (List.mem_cons_of_mem x hjr2) (fun he => hir2 (he ▸ hjr2))
            (fun he => hxr2 (he ▸ hjr2)) (fun he => hLdrop (he ▸ hj))
        · refine ⟨?_, by rw [hLnext]; rfl, trivial⟩
          rw [hLprev hLx, hLp]
    · rw [hL]
      exact ⟨by rw [hiprev], by rw [hinext]; rfl, trivial⟩

/-- Abstraction relation: the machine's LRU structure is exactly the ring of
    the (duplicate-free) list l, the head pointer is l's head, the counter
    is l's length, and every frame off the list has clear links. -/
def ReprLru (s : Machine) (l : List Nat) : Prop :=
  s.page_lru_head = l.head? ∧
  s.num_lru_pages = (l.length : Int) ∧
  l.Nodup ∧
  (∀ j, j ∉ l → (s.pages j).next = none ∧ (s.pages j).prev = none) ∧
  RingOf s.pages l

theorem upd_same {α : Type} (f : Nat → α) (i : Nat) (v : α) : upd f i v i = v := by
  rw [upd, if_pos rfl]

theorem upd_other {α : Type} (f : Nat → α) (i j : Nat) (v : α) (h : j ≠ i) :
    upd f i v j = f j := by
  rw [upd, if_neg h]

/-- lru_add of a frame not yet enrolled appends it at the tail. -/
theorem lru_add_repr (s : Machine) (l : List Nat) (i : Nat)
    (hrep : ReprLru s l) (hi : i ∉ l) :
    ReprLru (lru_add i s) (l ++ [i]) := by
  obtain ⟨hhead, hnum, hnd, hunl, hring⟩ := hrep
  cases hl : l with
  | nil =>
    subst hl
    have hh2 : s.page_lru_head = none := by rw [hhead]; rfl
    unfold lru_add
    rw [hh2]
    refine ⟨rfl, ?_, by simp, ?_, ?_⟩
    · show s.num_lru_pages + 1 = _
      simp at hnum
      simp [hnum]
    · intro j hj
      have hji : j ≠ i := by simpa using hj
      show (upd s.pages i _ j).next = none ∧ (upd s.pages i _ j).prev = none
      rw [upd_other _ _ _ _ hji]
      exact hunl j (by simp)
    · show Seg (upd s.pages i _) (([] : List Nat).getLastD i) [i] i
      refine ⟨?_, ?_, trivial⟩
      · rw [upd_same]
        rfl
      · rw [upd_same]
        rfl
  | cons x l2 =>
    subst hl
    have hh2 : s.page_lru_head = some x := by rw [hhead]; rfl
    have hix : i ≠ x := fun he => hi (by simp [he])
    have hLmem : l2.getLastD x ∈ x :: l2 := List.getLastD_mem_cons l2 x
    have hiL : i ≠ l2.getLastD x := fun he => hi (he ▸ hLmem)
    have hxprev : (s.pages x).prev = some (l2.getLastD x) := hring.1
    unfold lru_add
    rw [hh2]
    dsimp only
    rw [show ((upd (upd s.pages i { s.pages i with next := some x }) i
        { (upd s.pages i { s.pages i with next := some x }) i with
          prev := ((upd s.pages i { s.pages i with next := some x }) x).prev }) x).prev
        = some (l2.getLastD x) from by
      rw [upd_other _ _ _ _ (Ne.symm hix), upd_other _ _ _ _ (Ne.symm hix)]
      exact hxprev]
    dsimp only
    refine ⟨?_, ?_, ?_, ?_, ?_⟩
    · rfl
    · show s.num_lru_pages + 1 = _
      rw [hnum]
      have hlen : ((x :: l2) ++ [i]).length = (x :: l2).length + 1 := by simp
      rw [hlen]
      push_cast
      ring
    · rw [List.nodup_append]
      refine ⟨hnd, by simp, ?_⟩
      intro a ha hb
      simp at hb
      subst hb
      exact hi ha
    · intro j hj
      have hji : j ≠ i := fun he => hj (by simp [he])
      have hjx : j ≠ x := fun he => hj (by simp [he])
      have hjL : j ≠ l2.getLastD x := fun he => hj (List.mem_append_left _ (he ▸ hLmem))
      have hjl : j ∉ x :: l2 := fun hm => hj (List.mem_append_left _ hm)
      dsimp only
      rw [upd_other _ _ _ _ hjx, upd_other _ _ _ _ hjL,
          upd_other _ _ _ _ hji, upd_other _ _ _ _ hji]
      exact hunl j hjl
    · dsimp only
      refine ring_insert s.pages _ i x (l2.getLastD x) (x :: l2) hnd (by simp) hi rfl
        (by rw [List.getLastD_cons]) hring ?_ ?_ ?_ ?_ ?_ ?_ ?_
      · intro j hjm hji hjx hjL
        rw [upd_other _ _ _ _ hjx, upd_other _ _ _ _ hjL,
            upd_other _ _ _ _ hji, upd_other _ _ _ _ hji]
      · rw [upd_other _ _ _ _ hix, upd_other _ _ _ _ hiL, upd_same, upd_same]
        show ((upd s.pages i { s.pages i with next := some x }) x).prev = _
        rw [upd_other _ _ _ _ (Ne.symm hix)]
        exact hxprev
      · rw [upd_other _ _ _ _ hix, upd_other _ _ _ _ hiL, upd_same, upd_same]
      · rw [upd_same]
      · intro hxL
        rw [upd_same]
        dsimp only
        rw [upd_other _ _ _ _ hxL, upd_other _ _ _ _ (Ne.symm hix), upd_other _ _ _ _ (Ne.symm hix)]
      · by_cases hLx : l2.getLastD x = x
        · rw [hLx]
          simp [upd]
        · rw [upd_other _ _ _ _ hLx, upd_same]
      · intro hLx
        rw [upd_other _ _ _ _ hLx, upd_same]
        dsimp only
        rw [upd_other _ _ _ _ (Ne.symm hiL), upd_other _ _ _ _ (Ne.symm hiL)]

/-- lru_remove never touches the owner metadata (pagetable, vaddr) of any
    frame. -/
theorem lru_remove_owner_preserved (i : Nat) (s : Machine) (j : Nat) :
    ((lru_remove i s).pages j).pagetable = (s.pages j).pagetable ∧
    ((lru_remove i s).pages j).vaddr = (s.pages j).vaddr := by
  unfold lru_remove
  dsimp only
  split
  · constructor <;> (simp only [upd]; split_ifs <;> simp_all)
  · split
    · constructor <;> (simp only [upd]; split_ifs <;> simp_all)
    · constructor <;> (simp only [upd]; split_ifs <;> simp_all)

/-- The links of the front node of a ring. -/
theorem RingOf_cons_links (g : Nat → Page) (i : Nat) (rest : List Nat)
    (h : RingOf g (i :: rest)) :
    (g i).prev = some (rest.getLastD i) ∧ (g i).next = some (rest.headD i) := by
  have hseg : Seg g (rest.getLastD i) (i :: rest) i := h
  obtain ⟨h1, h2, -⟩ := hseg
  exact ⟨h1, h2⟩

/-- lru_remove of an enrolled frame erases it from the abstract list and
    clears its link fields. -/
theorem lru_remove_repr (s : Machine) (l : List Nat) (i : Nat)
    (hrep : ReprLru s l) (hi : i ∈ l) :
    ReprLru (lru_remove i s) (l.erase i) ∧
    ((lru_remove i s).pages i).next = none ∧ ((lru_remove i s).pages i).prev = none := by
  obtain ⟨hhead, hnum, hnd, hunl, hring⟩ := hrep
  obtain ⟨l1, l2, rfl⟩ := List.append_of_mem hi
  have hil1 : i ∉ l1 := fun hm => (List.disjoint_of_nodup_append hnd) hm (by simp)
  have hndi : (i :: l2).Nodup := (List.nodup_append.mp hnd).2.1
  have hil2 : i ∉ l2 := (List.nodup_cons.mp hndi).1
  have herase : (l1 ++ i :: l2).erase i = l1 ++ l2 := by
    rw [List.erase_append_right _ hil1, List.erase_cons_head]
  rw [herase]
  have hringrot : RingOf s.pages (i :: (l2 ++ l1)) := by
    have h1 := RingOf_swap s.pages l1 (i :: l2) hring
    rwa [List.cons_append] at h1
  have hndrot : (i :: (l2 ++ l1)).Nodup := by
    rw [List.nodup_cons]
    refine ⟨by simp [hil1, hil2], ?_⟩
    rw [List.nodup_append_comm]
    have := List.nodup_middle.mp hnd
    exact (List.nodup_cons.mp this).2
  obtain ⟨hprev, hnext⟩ := RingOf_cons_links s.pages i (l2 ++ l1) hringrot
  by_cases hrest : l2 ++ l1 = []
  · obtain ⟨hl2, hl1⟩ := List.append_eq_nil.mp hrest
    subst hl1
    subst hl2
    have hnext2 : (s.pages i).next = some i := hnext
    unfold lru_remove
    dsimp only
    rw [if_pos hnext2]
    refine ⟨⟨rfl, ?_, by simp, ?_, trivial⟩, ?_, ?_⟩
    · show s.num_lru_pages - 1 = _
      simp at hnum
      rw [hnum]
      simp
    · intro j hj
      dsimp only
      by_cases hji : j = i
      · simp only [upd]
        rw [if_pos hji]
        exact ⟨rfl, rfl⟩
      · simp only [upd]
        rw [if_neg hji]
        exact hunl j (by simpa using hji)
    · dsimp only
      rw [upd_same]
    · dsimp only
      rw [upd_same]
  · obtain ⟨c, r, hcr⟩ := List.exists_cons_of_ne_nil hrest
    have hNXmem : (l2 ++ l1).headD i ∈ l2 ++ l1 := by rw [hcr]; simp
    have hPVmem : (l2 ++ l1).getLastD i ∈ l2 ++ l1 := by
      rw [hcr, List.getLastD_cons]
      exact List.getLastD_mem_cons r c
    have hiNrot : i ∉ l2 ++ l1 := (List.nodup_cons.mp hndrot).1
    have hNXi : (l2 ++ l1).headD i ≠ i := fun he => hiNrot (he ▸ hNXmem)
    have hPVi : (l2 ++ l1).getLastD i ≠ i := fun he => hiNrot (he ▸ hPVmem)
    have hmemflip : ∀ j, j ∈ l2 ++ l1 → j ∈ l1 ++ l2 := by
      intro j hj
      rw [List.mem_append] at hj ⊢
      exact hj.symm
    unfold lru_remove
    dsimp only
    rw [if_neg (by rw [hnext]; exact fun he => hNXi (by simpa using he))]
    rw [hprev, hnext]
    dsimp only
    refine ⟨⟨?_, ?_, ?_, ?_, ?_⟩, ?_, ?_⟩
    · cases hl1 : l1 with
      | nil =>
        subst hl1
        have hh2 : s.page_lru_head = some i := by rw [hhead]; rfl
        rw [if_pos hh2]
        have hl2ne : l2 ≠ [] := by simpa using hrest
        obtain ⟨c2, r2, hc2⟩ := List.exists_cons_of_ne_nil hl2ne
        subst hc2
        rfl
      | cons y l1b =>
        subst hl1
        have hh2 : s.page_lru_head = some y := by rw [hhead]; rfl
        have hyi : y ≠ i := fun he => hil1 (by simp [he])
        rw [if_neg (by rw [hh2]; simp [hyi])]
        rw [hh2]
        rfl
    · show s.num_lru_pages - 1 = _
      rw [hnum]
      simp [List.length_append]
      ring
    · have hsub : (l1 ++ l2).Sublist (l1 ++ i :: l2) :=
        List.Sublist.append_left (List.sublist_cons_self i l2) l1
      exact hsub.nodup hnd
    · intro j hj
      have hjl1 : j ∉ l1 := fun hm => hj (List.mem_append_left _ hm)
      have hjl2 : j ∉ l2 := fun hm => hj (List.mem_append_right _ hm)
      dsimp only
      by_cases hji : j = i
      · simp only [upd]
        rw [if_pos hji]
        exact ⟨rfl, rfl⟩
      · have hjNX : j ≠ (l2 ++ l1).headD i := fun he => hj (hmemflip _ (he ▸ hNXmem))
        have hjPV : j ≠ (l2 ++ l1).getLastD i := fun he => hj (hmemflip _ (he ▸ hPVmem))
        simp only [upd]
        rw [if_neg hji, if_neg hjNX, if_neg hjPV]
        refine hunl j ?_
        intro hm
        rw [List.mem_append] at hm
        rcases hm with hm | hm
        · exact hjl1 hm
        · rcases List.mem_cons.mp hm with hm | hm
          · exact hji hm
          · exact hjl2 hm
    · dsimp only
      refine RingOf_swap _ l2 l1 ?_
      refine ring_splice s.pages _ i ((l2 ++ l1).getLastD i) ((l2 ++ l1).headD i)
        (l2 ++ l1) hndrot hrest rfl rfl hringrot ?_ ?_ ?_ ?_ ?_
      · intro j hjm hjPV hjNX
        have hji : j ≠ i := fun he => hiNrot (he ▸ hjm)
        rw [upd_other _ _ _ _ hji, upd_other _ _ _ _ hjNX, upd_other _ _ _ _ hjPV]
      · rw [upd_other _ _ _ _ hNXi, upd_same]
      · intro hne
        rw [upd_other _ _ _ _ hNXi, upd_same]
        dsimp only
        rw [upd_other _ _ _ _ hne]
      · rw [upd_other _ _ _ _ hPVi]
        by_cases hpn : (l2 ++ l1).getLastD i = (l2 ++ l1).headD i
        · rw [hpn, upd_same]
          dsimp only
          rw [upd_same]
        · rw [upd_other _ _ _ _ hpn, upd_same]
      · intro hpn
        rw [upd_other _ _ _ _ hPVi, upd_other _ _ _ _ hpn, upd_same]
    · dsimp only
      rw [upd_same]
    · dsimp only
      rw [upd_same]

/-- lru_move_to_tail_locked of an enrolled frame relocates it to the tail
    of the abstract list. -/
theorem lru_move_repr (s : Machine) (l : List Nat) (i : Nat)
    (hrep : ReprLru s l) (hi : i ∈ l) :
    ReprLru (lru_move_to_tail_locked i s) (l.erase i ++ [i]) := by
  obtain ⟨hhead, hnum, hnd, hunl, hring⟩ := hrep
  obtain ⟨l1, l2, rfl⟩ := List.append_of_mem hi
  have hil1 : i ∉ l1 := fun hm => (List.disjoint_of_nodup_append hnd) hm (by simp)
  have hndi : (i :: l2).Nodup := (List.nodup_append.mp hnd).2.1
  have hil2 : i ∉ l2 := (List.nodup_cons.mp hndi).1
  have herase : (l1 ++ i :: l2).erase i = l1 ++ l2 := by
    rw [List.erase_append_right _ hil1, List.erase_cons_head]
  rw [herase]
  have hringrot : RingOf s.pages (i :: (l2 ++ l1)) := by
    have h1 := RingOf_swap s.pages l1 (i :: l2) hring
    rwa [List.cons_append] at h1
  have hndrot : (i :: (l2 ++ l1)).Nodup := by
    rw [List.nodup_cons]
    refine ⟨by simp [hil1, hil2], ?_⟩
    rw [List.nodup_append_comm]
    have := List.nodup_middle.mp hnd
    exact (List.nodup_cons.mp this).2
  have hiNrot : i ∉ l2 ++ l1 := (List.nodup_cons.mp hndrot).1
  have hnd12 : (l1 ++ l2).Nodup := by
    have hsub : (l1 ++ l2).Sublist (l1 ++ i :: l2) :=
      List.Sublist.append_left (List.sublist_cons_self i l2) l1
    exact hsub.nodup hnd
  have hi12 : i ∉ l1 ++ l2 := by
    intro hm
    rw [List.mem_append] at hm
    rcases hm with hm | hm
    · exact hil1 hm
    · exact hil2 hm
  have hmemflip : ∀ j, j ∈ l2 ++ l1 → j ∈ l1 ++ l2 := by
    intro j hj
    rw [List.mem_append] at hj ⊢
    exact hj.symm
  obtain ⟨hprev, hnext⟩ := RingOf_cons_links s.pages i (l2 ++ l1) hringrot
  by_cases hrest : l2 ++ l1 = []
  · -- i is the only element: the splice and insert relink i to itself
    obtain ⟨hl2, hl1⟩ := List.append_eq_nil.mp hrest
    subst hl1
    subst hl2
    have hh2 : s.page_lru_head = some i := by rw [hhead]; rfl
    have hprev2 : (s.pages i).prev = some i := hprev
    have hnext2 : (s.pages i).next = some i := hnext
    unfold lru_move_to_tail_locked
    rw [if_neg (by rw [hh2, hnext2]; simp)]
    rw [hprev2, hnext2]
    dsimp only
    rw [if_pos hh2]
    dsimp only
    split
    · rename_i heq
      simp [upd] at heq
    · rename_i t heq
      simp [upd] at heq
      obtain rfl : i = t := by simpa using heq
      refine ⟨rfl, ?_, by simp, ?_, ?_⟩
      · show s.num_lru_pages = _
        rw [hnum]
        norm_num
      · intro j hj
        have hji : j ≠ i := by simpa using hj
        dsimp only
        simp [upd, hji]
        exact hunl j (by simpa using hji)
      · show Seg _ (([] : List Nat).getLastD i) [i] i
        refine ⟨?_, ?_, trivial⟩
        · simp [upd]
        · simp [upd]
  · -- general case: splice i out, then insert it before the (possibly new) head
    obtain ⟨c, r, hcr⟩ := List.exists_cons_of_ne_nil hrest
    have hNXmem : (l2 ++ l1).headD i ∈ l2 ++ l1 := by rw [hcr]; simp
    have hPVmem : (l2 ++ l1).getLastD i ∈ l2 ++ l1 := by
      rw [hcr, List.getLastD_cons]
      exact List.getLastD_mem_cons r c
    have hNXi : (l2 ++ l1).headD i ≠ i := fun he => hiNrot (he ▸ hNXmem)
    have hPVi : (l2 ++ l1).getLastD i ≠ i := fun he => hiNrot (he ▸ hPVmem)
    have hheadne : s.page_lru_head ≠ none := by
      rw [hhead]
      cases l1 <;> simp
    have hl12ne : l1 ++ l2 ≠ [] := by
      intro h0
      obtain ⟨ha, hb⟩ := List.append_eq_nil.mp h0
      rw [ha, hb] at hrest
      exact hrest rfl
    obtain ⟨d, t12, hdt⟩ := List.exists_cons_of_ne_nil hl12ne
    have hhd0mem : (l1 ++ l2).headD 0 ∈ l1 ++ l2 := by rw [hdt]; simp
    have hL0mem : (l1 ++ l2).getLastD 0 ∈ l1 ++ l2 := by
      rw [hdt, List.getLastD_cons]
      exact List.getLastD_mem_cons t12 d
    have hhi : (l1 ++ l2).headD 0 ≠ i := fun he => hi12 (he ▸ hhd0mem)
    have hLi : (l1 ++ l2).getLastD 0 ≠ i := fun he => hi12 (he ▸ hL0mem)
    have hmid : RingOf (upd (upd s.pages ((l2 ++ l1).getLastD i) { s.pages ((l2 ++ l1).getLastD i) with next := some ((l2 ++ l1).headD i) }) ((l2 ++ l1).headD i) { (upd s.pages ((l2 ++ l1).getLastD i) { s.pages ((l2 ++ l1).getLastD i) with next := some ((l2 ++ l1).headD i) }) ((l2 ++ l1).headD i) with prev := some ((l2 ++ l1).getLastD i) }) (l1 ++ l2) := by
      refine RingOf_swap _ l2 l1 ?_
      refine ring_splice s.pages _ i ((l2 ++ l1).getLastD i) ((l2 ++ l1).headD i)
        (l2 ++ l1) hndrot hrest rfl rfl hringrot ?_ ?_ ?_ ?_ ?_
      · intro j hjm hjPV hjNX
        rw [upd_other _ _ _ _ hjNX, upd_other _ _ _ _ hjPV]
      · rw [upd_same]
      · intro hne
        rw [upd_same]
        dsimp only
        rw [upd_other _ _ _ _ hne]
      · by_cases hpn : (l2 ++ l1).getLastD i = (l2 ++ l1).headD i
        · rw [hpn, upd_same]
          dsimp only
          rw [upd_same]
        · rw [upd_other _ _ _ _ hpn, upd_same]
      · intro hpn
        rw [upd_other _ _ _ _ hpn, upd_same]
    have hmid2 := hmid
    rw [hdt] at hmid2
    obtain ⟨hlinkd, -⟩ := RingOf_cons_links _ d t12 hmid2
    have hlink : ((upd (upd s.pages ((l2 ++ l1).getLastD i) { s.pages ((l2 ++ l1).getLastD i) with next := some ((l2 ++ l1).headD i) }) ((l2 ++ l1).headD i) { (upd s.pages ((l2 ++ l1).getLastD i) { s.pages ((l2 ++ l1).getLastD i) with next := some ((l2 ++ l1).headD i) }) ((l2 ++ l1).headD i) with prev := some ((l2 ++ l1).getLastD i) }) ((l1 ++ l2).headD 0)).prev = some ((l1 ++ l2).getLastD 0) := by
      rw [hdt, List.getLastD_cons]
      exact hlinkd
    have hh2eq : (if s.page_lru_head = some i then some ((l2 ++ l1).headD i)
        else s.page_lru_head) = some ((l1 ++ l2).headD 0) := by
      cases hl1 : l1 with
      | nil =>
        subst hl1
        have hh2 : s.page_lru_head = some i := by rw [hhead]; rfl
        rw [if_pos hh2]
        have hl2ne : l2 ≠ [] := by simpa using hrest
        obtain ⟨c2, r2, hc2⟩ := List.exists_cons_of_ne_nil hl2ne
        subst hc2
        rfl
      | cons y l1b =>
        subst hl1
        have hh2 : s.page_lru_head = some y := by rw [hhead]; rfl
        have hyi : y ≠ i := fun he => hil1 (by simp [he])
        rw [if_neg (by rw [hh2]; simp [hyi]), hh2]
        rfl
    unfold lru_move_to_tail_locked
    rw [if_neg (by
      push_neg
      refine ⟨hheadne, ?_⟩
      rw [hnext]
      simp)]
    rw [hprev, hnext]
    dsimp only
    rw [hh2eq]
    dsimp only
    split
    · rename_i heq
      rw [upd_other _ _ _ _ hhi, upd_other _ _ _ _ hhi, hlink] at heq
      exact absurd heq (by simp)
    · rename_i t heq
      rw [upd_other _ _ _ _ hhi, upd_other _ _ _ _ hhi, hlink] at heq
      obtain rfl : (l1 ++ l2).getLastD 0 = t := by simpa using heq
      refine ⟨?_, ?_, ?_, ?_, ?_⟩
      · show some ((l1 ++ l2).headD 0) = _
        rw [hdt]
        rfl
      · show s.num_lru_pages = _
        rw [hnum]
        simp [List.length_append]
      · rw [List.nodup_append]
        refine ⟨hnd12, by simp, ?_⟩
        intro a ha hb
        simp at hb
        subst hb
        exact hi12 ha
      · intro j hj
        have hjl1 : j ∉ l1 := fun hm => hj (List.mem_append_left _ (List.mem_append_left _ hm))
        have hjl2 : j ∉ l2 := fun hm => hj (List.mem_append_left _ (List.mem_append_right _ hm))
        have hji : j ≠ i := fun he => hj (List.mem_append_right _ (by simp [he]))
        have hj12 : j ∉ l1 ++ l2 := by
          intro hm
          rw [List.mem_append] at hm
          rcases hm with hm | hm
          · exact hjl1 hm
          · exact hjl2 hm
        have hjh : j ≠ (l1 ++ l2).headD 0 := fun he => hj12 (he ▸ hhd0mem)
        have hjL : j ≠ (l1 ++ l2).getLastD 0 := fun he => hj12 (he ▸ hL0mem)
        have hjNX : j ≠ (l2 ++ l1).headD i := fun he => hj12 (hmemflip _ (he ▸ hNXmem))
        have hjPV : j ≠ (l2 ++ l1).getLastD i := fun he => hj12 (hmemflip _ (he ▸ hPVmem))
        dsimp only
        rw [upd_other _ _ _ _ hjh, upd_other _ _ _ _ hjL, upd_other _ _ _ _ hji,
            upd_other _ _ _ _ hji, upd_other _ _ _ _ hjNX, upd_other _ _ _ _ hjPV]
        refine hunl j ?_
        intro hm
        rw [List.mem_append] at hm
        rcases hm with hm | hm
        · exact hjl1 hm
        · rcases List.mem_cons.mp hm with hm | hm
          · exact hji hm
          · exact hjl2 hm
      · dsimp only
        refine ring_insert (upd (upd s.pages ((l2 ++ l1).getLastD i) { s.pages ((l2 ++ l1).getLastD i) with next := some ((l2 ++ l1).headD i) }) ((l2 ++ l1).headD i) { (upd s.pages ((l2 ++ l1).getLastD i) { s.pages ((l2 ++ l1).getLastD i) with next := some ((l2 ++ l1).headD i) }) ((l2 ++ l1).headD i) with prev := some ((l2 ++ l1).getLastD i) }) _ i ((l1 ++ l2).headD 0) ((l1 ++ l2).getLastD 0)
          (l1 ++ l2) hnd12 hl12ne hi12 rfl rfl hmid ?_ ?_ ?_ ?_ ?_ ?_ ?_
        · intro j hjm hji hjh hjL
          rw [upd_other _ _ _ _ hjh, upd_other _ _ _ _ hjL,
              upd_other _ _ _ _ hji, upd_other _ _ _ _ hji]
        · rw [upd_other _ _ _ _ (Ne.symm hhi), upd_other _ _ _ _ (Ne.symm hLi), upd_same]
          dsimp only
          rw [upd_other _ _ _ _ hhi]
          exact hlink
        · rw [upd_other _ _ _ _ (Ne.symm hhi), upd_other _ _ _ _ (Ne.symm hLi), upd_same]
          dsimp only
          rw [upd_same]
        · rw [upd_same]
        · intro hhL
          rw [upd_same]
          dsimp only
          rw [upd_other _ _ _ _ hhL, upd_other _ _ _ _ hhi, upd_other _ _ _ _ hhi]
        · by_cases hLh : (l1 ++ l2).getLastD 0 = (l1 ++ l2).headD 0
          · rw [hLh, upd_same]
            dsimp only
            rw [upd_same]
          · rw [upd_other _ _ _ _ hLh, upd_same]
        · intro hLh
          rw [upd_other _ _ _ _ hLh, upd_same]
          dsimp only
          rw [upd_other _ _ _ _ hLi, upd_other _ _ _ _ hLi]

/-- No-op cases of lru_move_to_tail_locked: empty list or unlinked frame. -/
theorem lru_move_noop (i : Nat) (s : Machine)
    (h : s.page_lru_head = none ∨ (s.pages i).next = none) :
    lru_move_to_tail_locked i s = s := by
  unfold lru_move_to_tail_locked
  rw [if_pos h]

/-- The next pointer of the last node of a segment is its closing target. -/
theorem Seg_last_next (g : Nat → Page) :
    ∀ (l : List Nat) (a z d : Nat), l ≠ [] → Seg g a l z →
      (g (l.getLastD d)).next = some z := by
  intro l
  induction l with
  | nil => intro a z d h _; exact absurd rfl h
  | cons b l2 ih =>
    intro a z d hne hseg
    obtain ⟨h1, h2, h3⟩ := hseg
    rw [List.getLastD_cons]
    cases hl2 : l2 with
    | nil =>
      rw [hl2] at h2
      simpa using h2
    | cons c r =>
      rw [← hl2]
      exact ih b z b (by rw [hl2]; simp) h3

/-- Every member of a represented ring has coherent neighbour links. -/
theorem ReprLru_mem_links (s : Machine) (l : List Nat) (i : Nat)
    (hrep : ReprLru s l) (hi : i ∈ l) :
    ∃ nx pv, (s.pages i).next = some nx ∧ (s.pages i).prev = some pv ∧
      (s.pages nx).prev = some i ∧ (s.pages pv).next = some i := by
  obtain ⟨hhead, hnum, hnd, hunl, hring⟩ := hrep
  obtain ⟨l1, l2, rfl⟩ := List.append_of_mem hi
  have hringrot : RingOf s.pages (i :: (l2 ++ l1)) := by
    have h1 := RingOf_swap s.pages l1 (i :: l2) hring
    rwa [List.cons_append] at h1
  obtain ⟨hprev, hnext⟩ := RingOf_cons_links s.pages i (l2 ++ l1) hringrot
  refine ⟨(l2 ++ l1).headD i, (l2 ++ l1).getLastD i, hnext, hprev, ?_, ?_⟩
  · cases hrest : l2 ++ l1 with
    | nil =>
      rw [hrest] at hprev
      simpa using hprev
    | cons c r =>
      have hseg : Seg s.pages ((l2 ++ l1).getLastD i) (i :: (l2 ++ l1)) i := hringrot
      obtain ⟨-, -, hseg2⟩ := hseg
      rw [hrest] at hseg2
      obtain ⟨hcp, -, -⟩ := hseg2
      exact hcp
  · have hseg : Seg s.pages ((l2 ++ l1).getLastD i) (i :: (l2 ++ l1)) i := hringrot
    have hlast := Seg_last_next s.pages (i :: (l2 ++ l1))
      ((l2 ++ l1).getLastD i) i 0 (by simp) hseg
    rwa [List.getLastD_cons] at hlast

/-- A frame is enrolled (its next link set) in the C sense. -/
def Enrolled (s : Machine) (pg : Nat) : Prop := (s.pages pg).next ≠ none

/-- Under the representation, enrolment coincides with list membership. -/
theorem ReprLru_enrolled_iff (s : Machine) (l : List Nat) (hrep : ReprLru s l) :
    ∀ i, Enrolled s i ↔ i ∈ l := by
  intro i
  constructor
  · intro he
    by_contra hmem
    exact he (hrep.2.2.2.1 i hmem).1
  · intro hm
    obtain ⟨nx, -, hnx, -, -⟩ := ReprLru_mem_links s l i hrep hm
    intro h0
    rw [hnx] at h0
    exact Option.noConfusion h0

/-- The three LRU-list operations. -/
inductive LruOp where
  | add (pg : Nat)
  | remove (pg : Nat)
  | move (pg : Nat)

/-- One operation applied to the machine. -/
def applyOp : LruOp → Machine → Machine
  | .add pg, s => lru_add pg s
  | .remove pg, s => lru_remove pg s
  | .move pg, s => lru_move_to_tail_locked pg s

/-- Operation preconditions: add a not-yet-enrolled frame, remove an
    enrolled one; the move helper may be called on anything. -/
def ValidOp (s : Machine) : LruOp → Prop
  | .add pg => ¬ Enrolled s pg
  | .remove pg => Enrolled s pg
  | .move _ => True

def ValidSeq : Machine → List LruOp → Prop
  | _, [] => True
  | s, op :: ops => ValidOp s op ∧ ValidSeq (applyOp op s) ops

def execOps : Machine → List LruOp → Machine
  | s, [] => s
  | s, op :: ops => execOps (applyOp op s) ops

/-- Every valid operation sequence preserves representability. -/
theorem execOps_repr : ∀ (ops : List LruOp) (s : Machine) (l : List Nat),
    ReprLru s l → ValidSeq s ops → ∃ l2, ReprLru (execOps s ops) l2 := by
  intro ops
  induction ops with
  | nil => intro s l h _; exact ⟨l, h⟩
  | cons op ops ih =>
    intro s l h hv
    obtain ⟨hvo, hvs⟩ := hv
    cases op with
    | add pg =>
      have hmem : pg ∉ l := fun hm => hvo ((ReprLru_enrolled_iff s l h pg).mpr hm)
      exact ih _ _ (lru_add_repr s l pg h hmem) hvs
    | remove pg =>
      have hmem : pg ∈ l := (ReprLru_enrolled_iff s l h pg).mp hvo
      exact ih _ _ (lru_remove_repr s l pg h hmem).1 hvs
    | move pg =>
      by_cases hmem : pg ∈ l
      · exact ih _ _ (lru_move_repr s l pg h hmem) hvs
      · have hnoop : lru_move_to_tail_locked pg s = s :=
          lru_move_noop pg s (Or.inr (h.2.2.2.1 pg hmem).1)
        have happ : applyOp (.move pg) s = s := hnoop
        rw [show execOps s (LruOp.move pg :: ops) = execOps (applyOp (.move pg) s) ops from rfl,
            happ]
        rw [happ] at hvs
        exact ih s l h hvs

/-- C10: LRU structural invariant.  Starting from a machine whose LRU list
    is empty, any sequence of valid operations (lru_add of not-yet-enrolled
    frames, lru_remove of enrolled frames, lru_move_to_tail_locked of
    anything) leaves a well-formed circular ring: the enrolled frames form a
    duplicate-free list whose length is num_lru_pages, the head is null
    exactly when the count is zero, every enrolled frame's neighbour links
    are mutually coherent, and lru_move_to_tail_locked on an empty list or
    an unlinked frame changes nothing. -/
theorem lru_structural_invariant (s0 : Machine) (ops : List LruOp)
    (h0 : ReprLru s0 []) (hv : ValidSeq s0 ops) :
    ∃ l : List Nat, l.Nodup ∧
      (∀ i, Enrolled (execOps s0 ops) i ↔ i ∈ l) ∧
      (execOps s0 ops).num_lru_pages = (l.length : Int) ∧
      ((execOps s0 ops).page_lru_head = none ↔ (execOps s0 ops).num_lru_pages = 0) ∧
      (∀ i, i ∈ l → ∃ nx pv, ((execOps s0 ops).pages i).next = some nx ∧
        ((execOps s0 ops).pages i).prev = some pv ∧
        ((execOps s0 ops).pages nx).prev = some i ∧
        ((execOps s0 ops).pages pv).next = some i) ∧
      (∀ i, (execOps s0 ops).page_lru_head = none ∨ ¬ Enrolled (execOps s0 ops) i →
        lru_move_to_tail_locked i (execOps s0 ops) = execOps s0 ops) := by
  obtain ⟨l2, hrep⟩ := execOps_repr ops s0 [] h0 hv
  refine ⟨l2, hrep.2.2.1, ReprLru_enrolled_iff _ l2 hrep, hrep.2.1, ?_, ?_, ?_⟩
  · rw [hrep.1, hrep.2.1]
    cases l2 <;> simp <;> omega
  · intro i hm
    exact ReprLru_mem_links _ l2 i hrep hm
  · intro i hcase
    refine lru_move_noop i _ ?_
    rcases hcase with hc | hc
    · exact Or.inl hc
    · exact Or.inr (by simpa [Enrolled] using hc)

theorem lru_structural_invariant_witness :
    (ReprLru egM [] ∧ ValidSeq egM [LruOp.add 1, LruOp.add 2, LruOp.move 1, LruOp.remove 2]) ∧
    (∃ l : List Nat, l.Nodup ∧
      (∀ i, Enrolled (execOps egM [LruOp.add 1, LruOp.add 2, LruOp.move 1, LruOp.remove 2]) i ↔ i ∈ l) ∧
      (execOps egM [LruOp.add 1, LruOp.add 2, LruOp.move 1, LruOp.remove 2]).num_lru_pages = (l.length : Int) ∧
      ((execOps egM [LruOp.add 1, LruOp.add 2, LruOp.move 1, LruOp.remove 2]).page_lru_head = none ↔
        (execOps egM [LruOp.add 1, LruOp.add 2, LruOp.move 1, LruOp.remove 2]).num_lru_pages = 0) ∧
      (∀ i, i ∈ l → ∃ nx pv,
        ((execOps egM [LruOp.add 1, LruOp.add 2, LruOp.move 1, LruOp.remove 2]).pages i).next = some nx ∧
        ((execOps egM [LruOp.add 1, LruOp.add 2, LruOp.move 1, LruOp.remove 2]).pages i).prev = some pv ∧
        ((execOps egM [LruOp.add 1, LruOp.add 2, LruOp.move 1, LruOp.remove 2]).pages nx).prev = some i ∧
        ((execOps egM [LruOp.add 1, LruOp.add 2, LruOp.move 1, LruOp.remove 2]).pages pv).next = some i) ∧
      (∀ i, (execOps egM [LruOp.add 1, LruOp.add 2, LruOp.move 1, LruOp.remove 2]).page_lru_head = none ∨
          ¬ Enrolled (execOps egM [LruOp.add 1, LruOp.add 2, LruOp.move 1, LruOp.remove 2]) i →
        lru_move_to_tail_locked i (execOps egM [LruOp.add 1, LruOp.add 2, LruOp.move 1, LruOp.remove 2]) =
          execOps egM [LruOp.add 1, LruOp.add 2, LruOp.move 1, LruOp.remove 2])) := by
  have h0 : ReprLru egM [] := ⟨rfl, rfl, by simp, fun j _ => ⟨rfl, rfl⟩, trivial⟩
  have hv : ValidSeq egM [LruOp.add 1, LruOp.add 2, LruOp.move 1, LruOp.remove 2] := by
    refine ⟨?_, ?_, trivial, ?_, trivial⟩
    · show ¬ Enrolled egM 1
      simp [Enrolled, egM, egEmptyPages]
    · show ¬ Enrolled (applyOp (LruOp.add 1) egM) 2
      simp [Enrolled, applyOp, lru_add, egM, egEmptyPages, upd]
    · show Enrolled (applyOp (LruOp.move 1)
        (applyOp (LruOp.add 2) (applyOp (LruOp.add 1) egM))) 2
      simp [Enrolled, applyOp, lru_add, lru_move_to_tail_locked, egM, egEmptyPages, upd]
  exact ⟨⟨h0, hv⟩, lru_structural_invariant egM [LruOp.add 1, LruOp.add 2, LruOp.move 1, LruOp.remove 2] h0 hv⟩

/-! ### C7: lru_remove splices out and clears links, but not owner/vaddr -/

/-- Machine for the C7 counterexample: a single-member ring, frame 1,
    owned by page table 5 at virtual address 7. -/
def egC7M : Machine :=
  { egM with
    pages := upd egEmptyPages 1 { next := some 1, prev := some 1, pagetable := 5, vaddr := 7 }
  , page_lru_head := some 1
  , num_lru_pages := 1 }

/-- Counterexample to C7 as stated: frame 1 is enrolled, yet after
    lru_remove its owner reference and virtual address are untouched
    (still 5 and 7), contradicting "clears the frame's owner reference,
    virtual address, and both link fields" — only the links are cleared. -/
theorem lru_remove_owner_not_cleared_cex :
    Enrolled egC7M 1 ∧
    ((lru_remove 1 egC7M).pages 1).pagetable = 5 ∧
    ((lru_remove 1 egC7M).pages 1).vaddr = 7 ∧
    ((lru_remove 1 egC7M).pages 1).next = none ∧
    ((lru_remove 1 egC7M).pages 1).prev = none := by
  refine ⟨?_, rfl, rfl, rfl, rfl⟩
  intro h
  simp [egC7M, upd] at h

/-- C7 (amended): for every frame enrolled in a well-formed LRU ring,
    lru_remove splices it out of the ring (the resulting machine
    represents the list with the frame erased, which fixes the head
    pointer, leaving an empty head if it was the only member, and
    decrements the count) and clears both link fields of the frame; the
    owner reference and virtual address are left unchanged. -/
theorem lru_remove_spec (s : Machine) (l : List Nat) (i : Nat)
    (hrep : ReprLru s l) (hi : i ∈ l) :
    ReprLru (lru_remove i s) (l.erase i) ∧
    ((lru_remove i s).pages i).next = none ∧
    ((lru_remove i s).pages i).prev = none ∧
    ((lru_remove i s).pages i).pagetable = (s.pages i).pagetable ∧
    ((lru_remove i s).pages i).vaddr = (s.pages i).vaddr :=
  ⟨(lru_remove_repr s l i hrep hi).1, (lru_remove_repr s l i hrep hi).2.1,
   (lru_remove_repr s l i hrep hi).2.2,
   (lru_remove_owner_preserved i s i).1, (lru_remove_owner_preserved i s i).2⟩

theorem lru_remove_spec_witness :
    (ReprLru egC7M [1] ∧ 1 ∈ [1]) ∧
    (ReprLru (lru_remove 1 egC7M) ([1].erase 1) ∧
     ((lru_remove 1 egC7M).pages 1).next = none ∧
     ((lru_remove 1 egC7M).pages 1).prev = none ∧
     ((lru_remove 1 egC7M).pages 1).pagetable = (egC7M.pages 1).pagetable ∧
     ((lru_remove 1 egC7M).pages 1).vaddr = (egC7M.pages 1).vaddr) := by
  have hrep : ReprLru egC7M [1] := by
    refine ⟨rfl, rfl, by simp, ?_, ⟨rfl, rfl, trivial⟩⟩
    intro j hj
    simp only [List.mem_singleton] at hj
    constructor <;> simp [egC7M, upd, hj, egEmptyPages]
  exact ⟨⟨hrep, by simp⟩, lru_remove_spec egC7M [1] 1 hrep (by simp)⟩

/-! ### C8: the eviction scan terminates within one ring traversal -/

/-- The successor of a ring member is itself a ring member (its prev link
    is set, so it cannot be off-list). -/
theorem ReprLru_next_mem (s : Machine) (l : List Nat) (i : Nat)
    (hrep : ReprLru s l) (hi : i ∈ l) :
    ∃ nx, (s.pages i).next = some nx ∧ nx ∈ l := by
  obtain ⟨nx, pv, hnx, hpv, hnxprev, hpvnext⟩ := ReprLru_mem_links s l i hrep hi
  refine ⟨nx, hnx, ?_⟩
  by_contra hm
  have h0 := (hrep.2.2.2.1 nx hm).2
  rw [h0] at hnxprev
  exact Option.noConfusion hnxprev

/-- Under a representable ring the scan never crashes and never exhausts
    its fuel: with fuel at least (num_lru_pages - rounds) + 2 it returns
    a result. -/
theorem clockScan_total : ∀ (f : Nat) (s : Machine) (l : List Nat) (c : Nat) (r : Int),
    ReprLru s l → c ∈ l → (s.num_lru_pages - r).toNat + 2 ≤ f →
    ∃ v s' k, clockScan s c r f = some (v, s', k) := by
  intro f
  induction f with
  | zero => intro s l c r _ _ hf; omega
  | succ f ih =>
    intro s l c r hrep hc hf
    obtain ⟨nx, hnx, hnxmem⟩ := ReprLru_next_mem s l c hrep hc
    rw [clockScan]
    by_cases hstale : (s.pages c).pagetable = 0 ∨ (s.pages c).vaddr = 0
    · rw [if_pos hstale, hnx]
      dsimp only
      by_cases hover : r + 1 > s.num_lru_pages
      · rw [if_pos hover]; exact ⟨none, s, 1, rfl⟩
      · rw [if_neg hover]
        by_cases hcond : some nx ≠ s.page_lru_head ∧ r + 1 ≤ s.num_lru_pages
        · rw [if_pos hcond]
          obtain ⟨v, s', k, hres⟩ := ih s l nx (r + 1) hrep hnxmem (by omega)
          rw [hres]
          exact ⟨v, s', k + 1, rfl⟩
        · rw [if_neg hcond]; exact ⟨none, s, 1, rfl⟩
    · rw [if_neg hstale]
      cases hw : s.walk (s.pages c).pagetable (s.pages c).vaddr with
      | none =>
        rw [hnx]
        dsimp only
        by_cases hover : r + 1 > s.num_lru_pages
        · rw [if_pos hover]; exact ⟨none, s, 1, rfl⟩
        · rw [if_neg hover]
          by_cases hcond : some nx ≠ s.page_lru_head ∧ r + 1 ≤ s.num_lru_pages
          · rw [if_pos hcond]
            obtain ⟨v, s', k, hres⟩ := ih s l nx (r + 1) hrep hnxmem (by omega)
            rw [hres]
            exact ⟨v, s', k + 1, rfl⟩
          · rw [if_neg hcond]; exact ⟨none, s, 1, rfl⟩
      | some t =>
        dsimp only
        by_cases hV : s.pteMem t &&& PTE_V = 0
        · rw [if_pos hV, hnx]
          dsimp only
          by_cases hover : r + 1 > s.num_lru_pages
          · rw [if_pos hover]; exact ⟨none, s, 1, rfl⟩
          · rw [if_neg hover]
            by_cases hcond : some nx ≠ s.page_lru_head ∧ r + 1 ≤ s.num_lru_pages
            · rw [if_pos hcond]
              obtain ⟨v, s', k, hres⟩ := ih s l nx (r + 1) hrep hnxmem (by omega)
              rw [hres]
              exact ⟨v, s', k + 1, rfl⟩
            · rw [if_neg hcond]; exact ⟨none, s, 1, rfl⟩
        · rw [if_neg hV]
          by_cases hA : s.pteMem t &&& PTE_A = 0
          · rw [if_pos hA]; exact ⟨some c, s, 1, rfl⟩
          · rw [if_neg hA]
            try dsimp only
            have hrep1 : ReprLru { s with pteMem := upd s.pteMem t (s.pteMem t &&& (2 ^ 64 - 65)) } l := hrep
            have hrep2 := lru_move_repr _ l c hrep1 hc
            have hc2 : c ∈ l.erase c ++ [c] := by simp
            obtain ⟨nx2, hnx2, hnx2mem⟩ := ReprLru_next_mem _ _ c hrep2 hc2
            rw [hnx2]
            dsimp only
            have hn2 : (lru_move_to_tail_locked c { s with pteMem := upd s.pteMem t (s.pteMem t &&& (2 ^ 64 - 65)) }).num_lru_pages = s.num_lru_pages :=
              (lru_move_fields c _).2.2.2.2.2.2
            by_cases hcond : some nx2 ≠ (lru_move_to_tail_locked c { s with pteMem := upd s.pteMem t (s.pteMem t &&& (2 ^ 64 - 65)) }).page_lru_head ∧ r + 1 ≤ (lru_move_to_tail_locked c { s with pteMem := upd s.pteMem t (s.pteMem t &&& (2 ^ 64 - 65)) }).num_lru_pages
            · rw [if_pos hcond]
              have hle : r + 1 ≤ s.num_lru_pages := by rw [hn2] at hcond; exact hcond.2
              obtain ⟨v, s', k, hres⟩ := ih _ (l.erase c ++ [c]) nx2 (r + 1) hrep2 hnx2mem (by rw [hn2]; omega)
              rw [hres]
              exact ⟨v, s', k + 1, rfl⟩
            · rw [if_neg hcond]
              exact ⟨none, _, 1, rfl⟩

/-- Whenever the scan returns, its iteration count is at most
    (num_lru_pages - rounds) + 1: the budget guard admits at most one
    candidate step beyond the remaining allowance. -/
theorem clockScan_count_le : ∀ (f : Nat) (s : Machine) (c : Nat) (r : Int)
    (res : Option Nat × Machine × Nat),
    clockScan s c r f = some res → res.2.2 ≤ (s.num_lru_pages - r).toNat + 1 := by
  intro f
  induction f with
  | zero =>
    intro s c r res h
    exact absurd h (by rw [clockScan]; exact Option.noConfusion)
  | succ f ih =>
    intro s c r res h
    rw [clockScan] at h
    split at h
    · -- stale-metadata branch
      split at h
      · exact absurd h Option.noConfusion
      · split at h
        · cases h; dsimp only; omega
        · split at h
          · rename_i hcond
            obtain ⟨a, hrec, hres⟩ := Option.map_eq_some'.mp h
            have hk := ih _ _ (r + 1) a hrec
            have hle := hcond.2
            cases hres
            dsimp only
            omega
          · cases h; dsimp only; omega
    · -- resident: split on the walk result
      split at h
      · split at h
        · exact absurd h Option.noConfusion
        · split at h
          · cases h; dsimp only; omega
          · split at h
            · rename_i hcond
              obtain ⟨a, hrec, hres⟩ := Option.map_eq_some'.mp h
              have hk := ih _ _ (r + 1) a hrec
              have hle := hcond.2
              cases hres
              dsimp only
              omega
            · cases h; dsimp only; omega
      · split at h
        · -- entry not Valid
          split at h
          · exact absurd h Option.noConfusion
          · split at h
            · cases h; dsimp only; omega
            · split at h
              · rename_i hcond
                obtain ⟨a, hrec, hres⟩ := Option.map_eq_some'.mp h
                have hk := ih _ _ (r + 1) a hrec
                have hle := hcond.2
                cases hres
                dsimp only
                omega
              · cases h; dsimp only; omega
        · split at h
          · -- victim found
            cases h; dsimp only; omega
          · -- Accessed set: clear and move, possibly recurse
            dsimp only at h
            split at h
            · exact absurd h Option.noConfusion
            · split at h
              · rename_i hcond
                obtain ⟨a, hrec, hres⟩ := Option.map_eq_some'.mp h
                have hk := ih _ _ (r + 1) a hrec
                rw [(lru_move_fields _ _).2.2.2.2.2.2] at hk
                dsimp only at hk
                have hle := hcond.2
                rw [(lru_move_fields _ _).2.2.2.2.2.2] at hle
                dsimp only at hle
                cases hres
                dsimp only
                omega
              · cases h; dsimp only; omega

/-- C8: for every well-formed LRU ring (any contents, any assignment of
    Accessed flags in the entries) the eviction scan of swapout, run from
    the list head with the fuel swapout supplies, terminates with a result
    (no crash, no fuel exhaustion) after at most num_lru_pages + 1
    candidate steps — no more than one full traversal of the ring. -/
theorem swapout_scan_bounded (s : Machine) (l : List Nat) (hd : Nat)
    (hrep : ReprLru s l) (hhead : s.page_lru_head = some hd) :
    ∃ v s' k, clockScan s hd 0 (s.num_lru_pages.toNat + 2) = some (v, s', k) ∧
      k ≤ s.num_lru_pages.toNat + 1 := by
  have hmem : hd ∈ l := by
    have h1 := hrep.1
    rw [hhead] at h1
    cases l with
    | nil => exact absurd h1.symm (by simp)
    | cons a t =>
      simp only [List.head?] at h1
      cases h1
      simp
  obtain ⟨v, s', k, hres⟩ :=
    clockScan_total (s.num_lru_pages.toNat + 2) s l hd 0 hrep hmem (by omega)
  refine ⟨v, s', k, hres, ?_⟩
  have hk := clockScan_count_le (s.num_lru_pages.toNat + 2) s hd 0 (v, s', k) hres
  dsimp only at hk
  omega

theorem swapout_scan_bounded_witness :
    (ReprLru egC7M [1] ∧ egC7M.page_lru_head = some 1) ∧
    (∃ v s' k, clockScan egC7M 1 0 (egC7M.num_lru_pages.toNat + 2) = some (v, s', k) ∧
      k ≤ egC7M.num_lru_pages.toNat + 1) := by
  have hrep : ReprLru egC7M [1] := by
    refine ⟨rfl, rfl, by simp, ?_, ⟨rfl, rfl, trivial⟩⟩
    intro j hj
    simp only [List.mem_singleton] at hj
    constructor <;> simp [egC7M, upd, hj, egEmptyPages]
  exact ⟨⟨hrep, rfl⟩, swapout_scan_bounded egC7M [1] 1 hrep rfl⟩

/-! ### C3: eviction failure after victim selection is all-or-nothing -/

set_option maxRecDepth 10000 in
/-- Setting a clear bit in a byte and then clearing it again restores the
    byte (the set/clear pair of swap_alloc and swap_free). -/
theorem restore_byte : ∀ m < 8, ∀ B < 256, B &&& (1 <<< m) = 0 →
    ((B ||| (1 <<< m)) &&& 255) &&& (255 - (1 <<< m)) = B := by decide

/-- The eviction scan never touches the swap bitmap. -/
theorem clockScan_bitmap : ∀ (f : Nat) (s : Machine) (c : Nat) (r : Int)
    (res : Option Nat × Machine × Nat),
    clockScan s c r f = some res → res.2.1.bitmap = s.bitmap := by
  intro f
  induction f with
  | zero =>
    intro s c r res h
    exact absurd h (by rw [clockScan]; exact Option.noConfusion)
  | succ f ih =>
    intro s c r res h
    rw [clockScan] at h
    split at h
    · split at h
      · exact absurd h Option.noConfusion
      · split at h
        · cases h; rfl
        · split at h
          · obtain ⟨a, hrec, hres⟩ := Option.map_eq_some'.mp h
            have hk := ih _ _ (r + 1) a hrec
            cases hres
            exact hk
          · cases h; rfl
    · split at h
      · split at h
        · exact absurd h Option.noConfusion
        · split at h
          · cases h; rfl
          · split at h
            · obtain ⟨a, hrec, hres⟩ := Option.map_eq_some'.mp h
              have hk := ih _ _ (r + 1) a hrec
              cases hres
              exact hk
            · cases h; rfl
      · split at h
        · split at h
          · exact absurd h Option.noConfusion
          · split at h
            · cases h; rfl
            · split at h
              · obtain ⟨a, hrec, hres⟩ := Option.map_eq_some'.mp h
                have hk := ih _ _ (r + 1) a hrec
                cases hres
                exact hk
              · cases h; rfl
        · split at h
          · cases h; rfl
          · dsimp only at h
            split at h
            · exact absurd h Option.noConfusion
            · split at h
              · obtain ⟨a, hrec, hres⟩ := Option.map_eq_some'.mp h
                have hk := ih _ _ (r + 1) a hrec
                rw [(lru_move_fields _ _).2.2.2.1] at hk
                dsimp only at hk
                cases hres
                exact hk
              · cases h
                dsimp only
                rw [(lru_move_fields _ _).2.2.2.1]

/-- Freeing the slot that swap_alloc just set restores the bitmap exactly
    (bytes stay below 256 and the allocated bit was clear). -/
theorem bitmap_set_clear (s1 : Machine) (blk : Nat) (p : Kparams)
    (hlt : blk < p.swapPages) (hB : s1.bitmap (blk / 8) < 256)
    (hbit : s1.bitmap (blk / 8) &&& (1 <<< (blk % 8)) = 0) :
    swap_free p (blk : Int) { s1 with bitmap := upd s1.bitmap (blk / 8) ((s1.bitmap (blk / 8) ||| (1 <<< (blk % 8))) &&& 255) } = s1 := by
  rw [swap_free]
  rw [if_neg (by push_neg; constructor <;> omega)]
  have hm8 : blk % 8 < 8 := Nat.mod_lt _ (by norm_num)
  have hkey : ∀ j, upd (upd s1.bitmap (blk / 8) ((s1.bitmap (blk / 8) ||| (1 <<< (blk % 8))) &&& 255)) ((blk : Int).toNat / 8) ((upd s1.bitmap (blk / 8) ((s1.bitmap (blk / 8) ||| (1 <<< (blk % 8))) &&& 255)) ((blk : Int).toNat / 8) &&& (255 - (1 <<< ((blk : Int).toNat % 8)))) j = s1.bitmap j := by
    intro j
    simp only [Int.toNat_natCast]
    by_cases hj : j = blk / 8
    · subst hj
      rw [upd_same, upd_same]
      exact restore_byte (blk % 8) hm8 (s1.bitmap (blk / 8)) hB hbit
    · simp [upd, hj]
  have hfun : upd (upd s1.bitmap (blk / 8) ((s1.bitmap (blk / 8) ||| (1 <<< (blk % 8))) &&& 255)) ((blk : Int).toNat / 8) ((upd s1.bitmap (blk / 8) ((s1.bitmap (blk / 8) ||| (1 <<< (blk % 8))) &&& 255)) ((blk : Int).toNat / 8) &&& (255 - (1 <<< ((blk : Int).toNat % 8)))) = s1.bitmap := funext hkey
  dsimp only
  rw [hfun]

/-- C3: eviction is all-or-nothing. If the scan selected a victim but
    swapout still returns failure (-1) — no swap slot available, or the
    re-read translation entry missing or no longer Valid — then the state
    swapout returns is exactly the post-scan state: the victim is still
    enrolled with metadata and translation entry untouched, and the swap
    bitmap is as it was before the call (any slot allocated during the
    attempt has been freed). Bitmap bytes are assumed to be bytes (< 256). -/
theorem swapout_failure_all_or_nothing (p : Kparams) (s s' s1 : Machine)
    (hd victim : Nat) (k : Nat)
    (hhead : s.page_lru_head = some hd)
    (hscan : clockScan s hd 0 (s.num_lru_pages.toNat + 2) = some (some victim, s1, k))
    (hbytes : ∀ j, s.bitmap j < 256)
    (hres : swapout p s = some (-1, s')) :
    s' = s1 ∧ s'.bitmap = s.bitmap ∧
    s'.pages victim = s1.pages victim ∧ s'.pteMem = s1.pteMem ∧
    s'.page_lru_head = s1.page_lru_head ∧ s'.num_lru_pages = s1.num_lru_pages := by
  have hbm : s1.bitmap = s.bitmap :=
    clockScan_bitmap (s.num_lru_pages.toNat + 2) s hd 0 (some victim, s1, k) hscan
  suffices hs : s' = s1 by
    subst hs
    exact ⟨rfl, hbm, rfl, rfl, rfl, rfl⟩
  unfold swapout at hres
  rw [hhead] at hres
  dsimp only at hres
  rw [hscan] at hres
  dsimp only at hres
  cases halloc : swap_alloc p s1 with
  | mk o s2 =>
    rw [halloc] at hres
    cases o with
    | none =>
      dsimp only at hres
      have h2 : s2 = s1 := swapAllocLoop_none_eq s1 p.swapPages 0 s2 halloc
      rw [h2] at hres
      exact (congrArg Prod.snd (Option.some.inj hres)).symm
    | some blk =>
      obtain ⟨h1, h2, h3, h4⟩ := swapAllocLoop_some_eq s1 p.swapPages 0 blk s2 halloc
      have hfree : swap_free p (blk : Int) s2 = s1 := by
        rw [h4]
        exact bitmap_set_clear s1 blk p (by omega) (by rw [hbm]; exact hbytes _) h1
      dsimp only at hres
      split at hres
      · rw [hfree] at hres
        exact (congrArg Prod.snd (Option.some.inj hres)).symm
      · split at hres
        · rw [hfree] at hres
          exact (congrArg Prod.snd (Option.some.inj hres)).symm
        · try dsimp only at hres
          split at hres
          · exact absurd hres Option.noConfusion
          · have h0 := congrArg Prod.fst (Option.some.inj hres)
            dsimp only at h0
            exact absurd h0 (by decide)

/-- Params for the C3 witness: no swap slots at all, so slot allocation
    always fails. -/
def egC3P : Kparams := { endAddr := 4096, physTop := 409600, swapPages := 0 }

/-- Machine for the C3 witness: a single-frame ring whose frame is owned,
    mapped, Valid and not Accessed — the scan picks it as the victim, then
    slot allocation fails. -/
def egC3M : Machine :=
  { pages := upd egEmptyPages 1 { next := some 1, prev := some 1, pagetable := 10, vaddr := 100 }
  , page_lru_head := some 1
  , num_lru_pages := 1
  , freelist := []
  , bitmap := fun _ => 0
  , walk := fun pt va => if pt = 10 ∧ va = 100 then some 500 else none
  , pteMem := fun t => if t = 500 then 2049 else 0
  , mem := fun _ => 0
  , swapStore := fun _ => 0 }

theorem swapout_failure_all_or_nothing_witness :
    (egC3M.page_lru_head = some 1 ∧
     clockScan egC3M 1 0 (egC3M.num_lru_pages.toNat + 2) = some (some 1, egC3M, 1) ∧
     (∀ j, egC3M.bitmap j < 256) ∧
     swapout egC3P egC3M = some (-1, egC3M)) ∧
    (egC3M = egC3M ∧ egC3M.bitmap = egC3M.bitmap ∧
     egC3M.pages 1 = egC3M.pages 1 ∧ egC3M.pteMem = egC3M.pteMem ∧
     egC3M.page_lru_head = egC3M.page_lru_head ∧ egC3M.num_lru_pages = egC3M.num_lru_pages) :=
  ⟨⟨rfl, rfl, fun _ => Nat.succ_pos 255, rfl⟩,
   swapout_failure_all_or_nothing egC3P egC3M egC3M egC3M 1 1 1 rfl rfl
     (fun _ => Nat.succ_pos 255) rfl⟩
